import Mathlib

/-!
Verification of the CSR sparse-graph engine (`GrafoDisperso`).

The C++ sources are shallowly embedded:
* `std::vector<int>` fields become `List Nat` (all values stored by the
  program in reachable, defined states are non-negative);
* node-id arguments of the public queries stay `Int`, as in the source,
  so the negative-id checks are modelled faithfully;
* a text file is modelled as the list of its lines, each line a `List Char`;
  an unopenable file is `none`;
* `std::vector::resize(n, v)` keeps existing elements, truncating or
  padding with `v` — this is modelled exactly by `redimensionar`, because
  `construirCSR` calls `resize` on the *previous* contents of the member
  vectors.

Out-of-range `std::vector` indexing is undefined behaviour in the source;
where a loop of the source could perform such an access (only reachable
from states that violate the CSR invariants) the embedding reads a default
with `List.getD` / skips the write, and that spot is commented.
-/

/-! ## Character classes and `istream >> int` extraction -/

/-- Whitespace as classified by `std::isspace` in the default locale. -/
def esEspacio (c : Char) : Bool :=
  c = ' ' || c = '\t' || c = '\n' || c = '\r' || c = '\x0b' || c = '\x0c'

def esDigito (c : Char) : Bool :=
  '0' ≤ c && c ≤ '9'

/-- Read a maximal non-empty run of decimal digits from the front of `s`,
returning the value and the rest.  Fails (like `failbit`) if the first
character is not a digit.  (`int` overflow, which would also set `failbit`
in C++, is not modelled: values here are unbounded.) -/
def leerDigitos (s : List Char) : Option (Nat × List Char) :=
  if (s.takeWhile esDigito).isEmpty then none
  else some ((s.takeWhile esDigito).foldl (fun a c => 10 * a + (c.toNat - 48)) 0,
    s.dropWhile esDigito)

/-- `operator>>(std::istream, int&)`: skip whitespace, read an optional
sign and then at least one digit, stop at the first non-digit. -/
def extraerEntero (s : List Char) : Option (Int × List Char) :=
  match s.dropWhile esEspacio with
  | [] => none
  | c :: r =>
    if c = '-' then (leerDigitos r).map (fun p => (-(p.1 : Int), p.2))
    else if c = '+' then (leerDigitos r).map (fun p => ((p.1 : Int), p.2))
    else (leerDigitos (c :: r)).map (fun p => ((p.1 : Int), p.2))

/-- `iss >> origen >> destino`: both extractions must succeed.  Content
after the second integer is never examined. -/
def extraerDosEnteros (s : List Char) : Option (Int × Int) :=
  match extraerEntero s with
  | none => none
  | some (a, r) =>
    match extraerEntero r with
    | none => none
    | some (b, _) => some (a, b)

/-- One iteration of the `while (std::getline ...)` body of
`GrafoDisperso::cargarDatos`: empty lines and lines starting with `#` are
skipped, otherwise the line contributes an edge iff two integer
extractions succeed. -/
def procesarLinea (linea : List Char) : Option (Int × Int) :=
  match linea with
  | [] => none
  | c :: _ => if c = '#' then none else extraerDosEnteros linea

/-- Spec side (for claim C7): a whole token is an integer — an optional
sign followed by at least one digit and nothing else. -/
def esEnteroCompleto (t : List Char) : Bool :=
  match t with
  | [] => false
  | c :: r =>
    if c = '-' || c = '+' then !r.isEmpty && r.all esDigito
    else esDigito c && r.all esDigito

/-- Spec side (for claim C7): the sentence "the line contains exactly two
whitespace-separated integers" — optional leading whitespace, a maximal
non-whitespace token that is wholly an integer, whitespace, a second such
token, and at most trailing whitespace after it. -/
def contieneDosEnteros (l : List Char) : Bool :=
  let r0 := l.dropWhile esEspacio
  let t1 := r0.takeWhile (fun c => !esEspacio c)
  let r1 := r0.dropWhile (fun c => !esEspacio c)
  let r2 := r1.dropWhile esEspacio
  let t2 := r2.takeWhile (fun c => !esEspacio c)
  let r3 := r2.dropWhile (fun c => !esEspacio c)
  esEnteroCompleto t1 && esEnteroCompleto t2 && r3.all esEspacio

/-! ## The CSR structure -/

/-- The persistent state of `GrafoDisperso`. -/
structure GrafoDisperso : Type where
  row_ptr : List Nat
  column_indices : List Nat
  values : List Nat
  numNodos : Nat
  numAristas : Nat
  gradoEntrada : List Nat
deriving DecidableEq, Repr

/-- The state established by the constructor `GrafoDisperso()`. -/
def GrafoDisperso.inicial : GrafoDisperso :=
  { row_ptr := [], column_indices := [], values := [],
    numNodos := 0, numAristas := 0, gradoEntrada := [] }

/-- `std::vector::resize(n, v)`: truncate to `n` elements, or pad with
copies of `v`.  Existing elements are NOT reset. -/
def redimensionar (l : List Nat) (n : Nat) (v : Nat) : List Nat :=
  l.take n ++ List.replicate (n - l.length) v

def insertaOrdenado (x : Nat) : List Nat → List Nat
  | [] => [x]
  | y :: t => if x ≤ y then x :: y :: t else y :: insertaOrdenado x t

/-- Sorting ascending.  `std::sort` does not specify an algorithm; on
totally ordered keys every sort produces the same list, so a structural
insertion sort models it exactly. -/
def ordenaLista : List Nat → List Nat
  | [] => []
  | x :: t => insertaOrdenado x (ordenaLista t)

/-- In-place sort of the half-open segment `[lo, hi)` of `l`
(`std::sort(begin + lo, begin + hi)`). -/
def ordenaSegmento (l : List Nat) (lo hi : Nat) : List Nat :=
  l.take lo ++ ordenaLista ((l.drop lo).take (hi - lo)) ++ l.drop hi

/-- `GrafoDisperso::construirCSR`.  The counting, prefix-sum, placement
and per-row sorting passes are modelled pass by pass; `g` is the previous
state of the object, whose member vectors are `resize`d (not cleared). -/
def construirCSR (g : GrafoDisperso) (aristas : List (Nat × Nat)) (maxNodo : Nat) :
    GrafoDisperso :=
  let numNodos := maxNodo + 1
  let numAristas := aristas.length
  let rp0 := redimensionar g.row_ptr (numNodos + 1) 0
  let ge0 := redimensionar g.gradoEntrada numNodos 0
  -- first pass: out-degree tally into row_ptr[origin+1], in-degree tally
  let conteo := aristas.foldl
    (fun (p : List Nat × List Nat) a =>
      (p.1.set (a.1 + 1) (p.1.getD (a.1 + 1) 0 + 1),
       p.2.set a.2 (p.2.getD a.2 0 + 1)))
    (rp0, ge0)
  -- prefix sums: for i in 1..numNodos, row_ptr[i] += row_ptr[i-1]
  let rp1 := (List.range numNodos).foldl
    (fun acc i => acc.set (i + 1) (acc.getD (i + 1) 0 + acc.getD i 0)) conteo.1
  let ci0 := redimensionar g.column_indices numAristas 0
  let vals := redimensionar g.values numAristas 1
  -- second pass: place each destination at its row cursor
  let colocado := aristas.foldl
    (fun (p : List Nat × List Nat) a =>
      (p.1.set (p.2.getD a.1 0) a.2, p.2.set a.1 (p.2.getD a.1 0 + 1)))
    (ci0, rp1.take numNodos)
  -- sort each row segment
  let ci1 := (List.range numNodos).foldl
    (fun acc i => ordenaSegmento acc (rp1.getD i 0) (rp1.getD (i + 1) 0)) colocado.1
  { row_ptr := rp1, column_indices := ci1, values := vals,
    numNodos := numNodos, numAristas := numAristas, gradoEntrada := conteo.2 }

/-- `GrafoDisperso::cargarDatos`.  `none` models a file that cannot be
opened (early `return false`, state untouched).  Accepted pairs are
non-negative in every defined run of the source (a negative id would make
the counting pass index `row_ptr` out of range, undefined behaviour), so
the conversion to `Nat` is exact there. -/
def cargarDatos (g : GrafoDisperso) (archivo : Option (List (List Char))) :
    Bool × GrafoDisperso :=
  match archivo with
  | none => (false, g)
  | some lineas =>
    let aristas := lineas.filterMap procesarLinea
    let maxNodo := aristas.foldl (fun m a => max m (max a.1 a.2)) (0 : Int)
    (true, construirCSR g (aristas.map (fun a => (a.1.toNat, a.2.toNat))) maxNodo.toNat)

/-! ## Queries -/

/-- The row of node `v`: `column_indices[row_ptr[v] .. row_ptr[v+1])`,
exactly the cells read by the neighbour loops of the source. -/
def vecinosDe (g : GrafoDisperso) (v : Nat) : List Nat :=
  (g.column_indices.drop (g.row_ptr.getD v 0)).take
    (g.row_ptr.getD (v + 1) 0 - g.row_ptr.getD v 0)

/-- `GrafoDisperso::obtenerGrado` (out-degree, `-1` sentinel). -/
def obtenerGrado (g : GrafoDisperso) (nodo : Int) : Int :=
  if nodo < 0 ∨ (g.numNodos : Int) ≤ nodo then -1
  else (g.row_ptr.getD (nodo.toNat + 1) 0 : Int) - (g.row_ptr.getD nodo.toNat 0 : Int)

/-- `GrafoDisperso::obtenerGradoEntrada` (in-degree, `-1` sentinel). -/
def obtenerGradoEntrada (g : GrafoDisperso) (nodo : Int) : Int :=
  if nodo < 0 ∨ (g.numNodos : Int) ≤ nodo then -1
  else (g.gradoEntrada.getD nodo.toNat 0 : Int)

/-- `GrafoDisperso::getVecinos`. -/
def getVecinos (g : GrafoDisperso) (nodo : Int) : List Nat :=
  if nodo < 0 ∨ (g.numNodos : Int) ≤ nodo then []
  else vecinosDe g nodo.toNat

/-- `GrafoDisperso::getNumNodos`. -/
def getNumNodos (g : GrafoDisperso) : Nat := g.numNodos

/-- `GrafoDisperso::getNumAristas`. -/
def getNumAristas (g : GrafoDisperso) : Nat := g.numAristas

/-- `GrafoDisperso::getNodoMayorGrado`: linear scan keeping
`(maxGrado, nodoMax)`, strict `>` comparison, returns `(nodoMax, maxGrado)`. -/
def getNodoMayorGrado (g : GrafoDisperso) : Int × Int :=
  let r := (List.range g.numNodos).foldl
    (fun (p : Int × Int) (i : Nat) =>
      if obtenerGrado g (i : Int) > p.1 then (obtenerGrado g (i : Int), (i : Int)) else p)
    (0, -1)
  (r.2, r.1)

/-! ## Small facts about `List.getD`, `List.set` and counting -/

theorem getD_set_self {α : Type} (a d : α) :
    ∀ (l : List α) (i : Nat), i < l.length → (l.set i a).getD i d = a := by
  intro l
  induction l with
  | nil => intro i h; simp at h
  | cons b t ih =>
    intro i h
    cases i with
    | zero => rfl
    | succ i => simpa [List.getD_cons_succ] using ih i (by simpa using h)

theorem getD_set_other {α : Type} (a d : α) :
    ∀ (l : List α) (i j : Nat), i ≠ j → (l.set i a).getD j d = l.getD j d := by
  intro l
  induction l with
  | nil => intro i j _; simp [List.set]
  | cons b t ih =>
    intro i j hij
    cases i with
    | zero =>
      cases j with
      | zero => exact absurd rfl hij
      | succ j => simp [List.getD_cons_succ]
    | succ i =>
      cases j with
      | zero => simp [List.getD_cons_zero]
      | succ j => simpa [List.getD_cons_succ] using ih i j (by omega)

theorem getD_eq_default_of_le {α : Type} (d : α) :
    ∀ (l : List α) (i : Nat), l.length ≤ i → l.getD i d = d := by
  intro l
  induction l with
  | nil => intro i _; simp [List.getD]
  | cons b t ih =>
    intro i h
    cases i with
    | zero => simp at h
    | succ i => simpa [List.getD_cons_succ] using ih i (by simpa using h)

theorem count_false_set_true :
    ∀ (l : List Bool) (i : Nat), i < l.length → l.getD i false = false →
      (l.set i true).count false + 1 = l.count false := by
  intro l
  induction l with
  | nil => intro i h; simp at h
  | cons b t ih =>
    intro i h hf
    cases i with
    | zero =>
      have hb : b = false := by simpa [List.getD_cons_zero] using hf
      subst hb
      simp [List.count_cons]
    | succ i =>
      have := ih i (by simpa using h) (by simpa [List.getD_cons_succ] using hf)
      simp only [List.set, List.count_cons]
      omega

/-! ## BFS -/

/-- The inner neighbour loop of `GrafoDisperso::BFS`: for each neighbour,
if unvisited, mark it and enqueue it at `nivel + 1`.  State is
`(visitado, cola)`.  A neighbour id not indexing `visitado` would be an
out-of-range access (undefined behaviour) in the source; here it is
skipped. -/
def bfsExpand (vecinos : List Nat) (nivel : Nat) (p : List Bool × List (Nat × Nat)) :
    List Bool × List (Nat × Nat) :=
  vecinos.foldl
    (fun p w =>
      if p.1.getD w false then p
      else if w < p.1.length then (p.1.set w true, p.2 ++ [(w, nivel + 1)])
      else p)
    p

theorem bfsExpand_medida (nivel : Nat) :
    ∀ (vecinos : List Nat) (p : List Bool × List (Nat × Nat)),
      (bfsExpand vecinos nivel p).1.count false + (bfsExpand vecinos nivel p).2.length
        = p.1.count false + p.2.length := by
  intro vecinos
  induction vecinos with
  | nil => intro p; rfl
  | cons w vs ih =>
    intro p
    show (bfsExpand vs nivel _).1.count false + (bfsExpand vs nivel _).2.length = _
    by_cases h1 : p.1.getD w false
    · simp only [h1, if_true]
      exact ih p
    · by_cases h2 : w < p.1.length
      · simp only [h1, if_false, h2, if_true, Bool.false_eq_true]
        rw [ih]
        have := count_false_set_true p.1 w h2 (by simpa using h1)
        simp only [List.length_append, List.length_cons, List.length_nil]
        omega
      · simp only [h1, if_false, h2, if_true, Bool.false_eq_true]
        exact ih p

/-- The `while (!cola.empty())` loop of `GrafoDisperso::BFS`.  On dequeue
the pair is appended to the output; if its level has reached the bound its
neighbours are not expanded. -/
def bfsLoop (g : GrafoDisperso) (prof : Int) :
    List Bool → List (Nat × Nat) → List (Nat × Nat) → List (Nat × Nat)
  | _, [], res => res
  | vis, (v, nivel) :: resto, res =>
    if (nivel : Int) ≥ prof then
      bfsLoop g prof vis resto (res ++ [(v, nivel)])
    else
      bfsLoop g prof (bfsExpand (vecinosDe g v) nivel (vis, resto)).1
        (bfsExpand (vecinosDe g v) nivel (vis, resto)).2 (res ++ [(v, nivel)])
termination_by vis cola _ => vis.count false + cola.length
decreasing_by
  · simp only [List.length_cons]; omega
  · have h := bfsExpand_medida nivel (vecinosDe g v) (vis, resto)
    dsimp only at h
    simp only [List.length_cons]
    omega

/-- `GrafoDisperso::BFS`: invalid start gives an empty result; otherwise
the start node is marked visited and enqueued at level 0. -/
def BFS (g : GrafoDisperso) (nodoInicio profundidadMaxima : Int) : List (Nat × Nat) :=
  if nodoInicio < 0 ∨ (g.numNodos : Int) ≤ nodoInicio then []
  else
    bfsLoop g profundidadMaxima
      ((List.replicate g.numNodos false).set nodoInicio.toNat true)
      [(nodoInicio.toNat, 0)] []

/-! ## DFS -/

/-- The `while (!pila.empty())` loop of `GrafoDisperso::DFS`: check the
visited flag at pop; on first pop of an unvisited node mark it, emit it
and push its still-unvisited neighbours in reverse row order.  Marking a
node id not indexing `visitado` would be out-of-range (undefined
behaviour) in the source; here such a pop is skipped. -/
def dfsLoop (g : GrafoDisperso) : List Bool → List Nat → List Nat → List Nat
  | _, [], res => res
  | vis, v :: resto, res =>
    if vis.getD v false then dfsLoop g vis resto res
    else if v < vis.length then
      dfsLoop g (vis.set v true)
        ((vecinosDe g v).reverse.foldl
          (fun pila w => if (vis.set v true).getD w false then pila else w :: pila) resto)
        (res ++ [v])
    else dfsLoop g vis resto res
termination_by vis pila _ => (vis.count false, pila.length)
decreasing_by
  · apply Prod.Lex.right
    simp
  · apply Prod.Lex.left
    have h2 : v < vis.length := by assumption
    have := count_false_set_true vis v h2 (by simpa using ‹¬vis.getD v false = true›)
    omega
  · apply Prod.Lex.right
    simp

/-- `GrafoDisperso::DFS`: invalid start gives an empty result; otherwise
the stack is seeded with the start node (not yet marked: DFS marks at
pop, unlike BFS). -/
def DFS (g : GrafoDisperso) (nodoInicio : Int) : List Nat :=
  if nodoInicio < 0 ∨ (g.numNodos : Int) ≤ nodoInicio then []
  else dfsLoop g (List.replicate g.numNodos false) [nodoInicio.toNat] []

/-! ## Subgraph edge extraction -/

/-- The inner loop of `GrafoDisperso::getAristasSubgrafo`: each outgoing
edge `(v, w)` is appended unconditionally; `w` is inserted into the
membership set and enqueued only if not yet a member.  State is
`(nodosEnSubgrafo, cola, aristas)`. -/
def subExpand (v nivel : Nat) (vecinos : List Nat)
    (st : List Nat × List (Nat × Nat) × List (Nat × Nat)) :
    List Nat × List (Nat × Nat) × List (Nat × Nat) :=
  vecinos.foldl
    (fun st w =>
      if w ∈ st.1 then (st.1, st.2.1, st.2.2 ++ [(v, w)])
      else (w :: st.1, st.2.1 ++ [(w, nivel + 1)], st.2.2 ++ [(v, w)]))
    st

theorem longitud_filtro_mono {α : Type} (p q : α → Bool) (h : ∀ x, p x = true → q x = true) :
    ∀ l : List α, (l.filter p).length ≤ (l.filter q).length := by
  intro l
  induction l with
  | nil => exact Nat.le_refl 0
  | cons a t ih =>
    cases hpa : p a with
    | false =>
      cases hqa : q a with
      | false => simpa [List.filter_cons, hpa, hqa] using ih
      | true =>
        simp only [List.filter_cons, hpa, hqa, if_true, List.length_cons]
        simp only [Bool.false_eq_true, if_false]
        omega
    | true =>
      have hqa := h a hpa
      simp only [List.filter_cons, hpa, hqa, if_true, List.length_cons]
      omega

theorem filtro_no_en_mono (w : Nat) (s : List Nat) (ref : List Nat) :
    (ref.filter (fun x => decide (x ∉ w :: s))).length
      ≤ (ref.filter (fun x => decide (x ∉ s))).length := by
  refine longitud_filtro_mono _ _ (fun x hx => ?_) ref
  simp only [decide_eq_true_eq] at hx ⊢
  exact fun hxs => hx (List.mem_cons_of_mem w hxs)

theorem filtro_no_en_inserta (w : Nat) (s : List Nat) (hw : w ∉ s) :
    ∀ (ref : List Nat), w ∈ ref →
      (ref.filter (fun x => decide (x ∉ w :: s))).length + 1
        ≤ (ref.filter (fun x => decide (x ∉ s))).length := by
  intro ref
  induction ref with
  | nil => simp
  | cons a t ih =>
    intro hmem
    by_cases haw : a = w
    · subst haw
      have h1 : decide (a ∉ a :: s) = false := by simp
      have h2 : decide (a ∉ s) = true := by simpa using hw
      simp only [List.filter_cons, h1, h2, if_true, List.length_cons]
      simp only [Bool.false_eq_true, if_false]
      have := filtro_no_en_mono a s t
      omega
    · have hmt : w ∈ t := by
        cases List.mem_cons.mp hmem with
        | inl h => exact absurd h.symm haw
        | inr h => exact h
      by_cases ha : a ∈ s
      · have h1 : decide (a ∉ w :: s) = false := by simp [ha]
        have h2 : decide (a ∉ s) = false := by simp [ha]
        simp only [List.filter_cons, h1, h2, Bool.false_eq_true, if_false]
        exact ih hmt
      · have h1 : decide (a ∉ w :: s) = true := by
          simp only [decide_eq_true_eq, List.mem_cons, not_or]
          exact ⟨haw, ha⟩
        have h2 : decide (a ∉ s) = true := by simpa using ha
        simp only [List.filter_cons, h1, h2, if_true, List.length_cons]
        have := ih hmt
        omega

theorem subExpand_paso (v nivel w : Nat) (vs : List Nat)
    (st : List Nat × List (Nat × Nat) × List (Nat × Nat)) :
    subExpand v nivel (w :: vs) st =
      subExpand v nivel vs
        (if w ∈ st.1 then (st.1, st.2.1, st.2.2 ++ [(v, w)])
         else (w :: st.1, st.2.1 ++ [(w, nivel + 1)], st.2.2 ++ [(v, w)])) := rfl

theorem subExpand_medida (ref : List Nat) (v nivel : Nat) :
    ∀ (vecinos : List Nat) (st : List Nat × List (Nat × Nat) × List (Nat × Nat)),
      (∀ w ∈ vecinos, w ∈ ref) →
      (ref.filter (fun x => decide (x ∉ (subExpand v nivel vecinos st).1))).length
          + (subExpand v nivel vecinos st).2.1.length
        ≤ (ref.filter (fun x => decide (x ∉ st.1))).length + st.2.1.length := by
  intro vecinos
  induction vecinos with
  | nil => intro st _; exact Nat.le_refl _
  | cons w vs ih =>
    intro st hsub
    rw [subExpand_paso]
    by_cases h1 : w ∈ st.1
    · rw [if_pos h1]
      exact ih _ (fun x hx => hsub x (List.mem_cons_of_mem w hx))
    · rw [if_neg h1]
      refine le_trans (ih _ (fun x hx => hsub x (List.mem_cons_of_mem w hx))) ?_
      have := filtro_no_en_inserta w st.1 h1 ref (hsub w (List.mem_cons_self w vs))
      simp only [List.length_append, List.length_cons, List.length_nil]
      omega

/-- Every neighbour read by a traversal is one of the stored column
indices. -/
theorem vecinosDe_sub (g : GrafoDisperso) (v : Nat) :
    ∀ w ∈ vecinosDe g v, w ∈ g.column_indices := by
  intro w hw
  exact ((List.take_sublist _ _).trans (List.drop_sublist _ _)).mem hw

/-- The `while (!cola.empty())` loop of `GrafoDisperso::getAristasSubgrafo`. -/
def subLoop (g : GrafoDisperso) (prof : Int) :
    List Nat → List (Nat × Nat) → List (Nat × Nat) → List (Nat × Nat)
  | _, [], aristas => aristas
  | enSub, (v, nivel) :: resto, aristas =>
    if (nivel : Int) ≥ prof then subLoop g prof enSub resto aristas
    else
      subLoop g prof
        (subExpand v nivel (vecinosDe g v) (enSub, resto, aristas)).1
        (subExpand v nivel (vecinosDe g v) (enSub, resto, aristas)).2.1
        (subExpand v nivel (vecinosDe g v) (enSub, resto, aristas)).2.2
termination_by enSub cola _ =>
  (g.column_indices.filter (fun x => decide (x ∉ enSub))).length + cola.length
decreasing_by
  · simp only [List.length_cons]; omega
  · have h := subExpand_medida g.column_indices v nivel (vecinosDe g v)
      (enSub, resto, aristas) (vecinosDe_sub g v)
    dsimp only at h
    simp only [List.length_cons]
    omega

/-- `GrafoDisperso::getAristasSubgrafo`: invalid start gives an empty
result; otherwise a bounded BFS records every outgoing edge of each node
dequeued below the depth bound. -/
def getAristasSubgrafo (g : GrafoDisperso) (nodoInicio profundidadMaxima : Int) :
    List (Nat × Nat) :=
  if nodoInicio < 0 ∨ (g.numNodos : Int) ≤ nodoInicio then []
  else subLoop g profundidadMaxima [nodoInicio.toNat] [(nodoInicio.toNat, 0)] []

/-! ## Well-formed CSR states

A successfully and cleanly loaded graph (first load of an instance)
satisfies these facts; they are exactly what the traversal proofs need:
`row_ptr` has length `numNodos + 1`, is monotone with final entry the
length of `column_indices`, every stored column index is a valid node id,
and every row is sorted ascending. -/
/-- Ascending (non-strictly) sorted list of naturals. -/
def listaOrdenada : List Nat → Bool
  | [] => true
  | [_] => true
  | x :: y :: t => x ≤ y && listaOrdenada (y :: t)

def esWF (g : GrafoDisperso) : Bool :=
  (g.row_ptr.length == g.numNodos + 1) &&
  (g.row_ptr.getD g.numNodos 0 == g.column_indices.length) &&
  (List.range g.numNodos).all (fun i => g.row_ptr.getD i 0 ≤ g.row_ptr.getD (i + 1) 0) &&
  g.column_indices.all (fun w => w < g.numNodos) &&
  (List.range g.numNodos).all (fun i => listaOrdenada (vecinosDe g i))

/-! ## Concrete instances used as test vectors -/

/-- The spec's worked example: edges `(0,1), (0,2), (1,2), (2,0)` loaded
into a fresh engine. -/
def grafoEjemplo : GrafoDisperso :=
  (cargarDatos GrafoDisperso.inicial
    (some [['0', ' ', '1'], ['0', ' ', '2'], ['1', ' ', '2'], ['2', ' ', '0']])).2

/-- File containing the single edge `2 0`. -/
def archivoA : List (List Char) := [['2', ' ', '0']]

/-- File containing the single edge `0 1`. -/
def archivoB : List (List Char) := [['0', ' ', '1']]

/-- Engine state after loading `archivoA` and then `archivoB` into the
same instance (second load re-`resize`s the stale vectors). -/
def grafoRecargado : GrafoDisperso :=
  (cargarDatos (cargarDatos GrafoDisperso.inicial (some archivoA)).2 (some archivoB)).2

/-- Engine state after loading only `archivoB` into a fresh instance:
what the second dataset alone determines. -/
def grafoFresco : GrafoDisperso :=
  (cargarDatos GrafoDisperso.inicial (some archivoB)).2

/-- Helper lemmas for the load path: the scalar counts written by
`construirCSR` depend only on its arguments. -/
theorem construirCSR_numNodos (g : GrafoDisperso) (aristas : List (Nat × Nat))
    (maxNodo : Nat) : (construirCSR g aristas maxNodo).numNodos = maxNodo + 1 := rfl

theorem construirCSR_numAristas (g : GrafoDisperso) (aristas : List (Nat × Nat))
    (maxNodo : Nat) : (construirCSR g aristas maxNodo).numAristas = aristas.length := rfl

/-- C2 (status: code_bug).  `construirCSR` resizes the previous member
vectors without clearing them, so the in-degree table after a second load
still contains tallies from the first dataset: after loading `2 0` and
then `0 1`, `InDegree(0)` is `1`, while the second dataset alone gives
`0`. -/
theorem segunda_carga_contaminada :
    (cargarDatos (cargarDatos GrafoDisperso.inicial (some archivoA)).2 (some archivoB)).1
        = true ∧
    obtenerGradoEntrada grafoRecargado 0 = 1 ∧
    obtenerGradoEntrada grafoFresco 0 = 0 ∧
    grafoRecargado.gradoEntrada = [1, 1] ∧
    grafoFresco.gradoEntrada = [0, 1] ∧
    grafoRecargado.numNodos = grafoFresco.numNodos ∧
    grafoRecargado.numAristas = grafoFresco.numAristas := by decide

/-- C3 (status: code_bug).  For the same reason the construction-time
invariant `sum(gradoEntrada) = numAristas` fails after a rebuild on a
dirty instance: the run of `construirCSR` performed by the second load of
`grafoRecargado` (edge list `[(0,1)]`, maximum node id 1) leaves
`gradoEntrada` summing to 2 while `numAristas = 1`. -/
theorem invariante_suma_grados_violado :
    grafoRecargado
        = construirCSR (cargarDatos GrafoDisperso.inicial (some archivoA)).2 [(0, 1)] 1 ∧
    grafoRecargado.numAristas = 1 ∧
    grafoRecargado.gradoEntrada.sum = 2 ∧
    grafoRecargado.gradoEntrada.sum ≠ grafoRecargado.numAristas := by decide

/-- C4: every query applied to an out-of-range node id (negative or
`≥ numNodos`) returns its sentinel (`-1` for the degree queries, the
empty sequence for the others); all queries are total. -/
theorem consultas_fuera_de_rango (g : GrafoDisperso) (n : Int)
    (h : n < 0 ∨ (g.numNodos : Int) ≤ n) (d : Int) :
    obtenerGrado g n = -1 ∧ obtenerGradoEntrada g n = -1 ∧ getVecinos g n = [] ∧
      BFS g n d = [] ∧ DFS g n = [] ∧ getAristasSubgrafo g n d = [] := by
  refine ⟨?_, ?_, ?_, ?_, ?_, ?_⟩
  · rw [obtenerGrado, if_pos h]
  · rw [obtenerGradoEntrada, if_pos h]
  · rw [getVecinos, if_pos h]
  · rw [BFS, if_pos h]
  · rw [DFS, if_pos h]
  · rw [getAristasSubgrafo, if_pos h]

/-- Witness for C4 at the loaded example graph (3 nodes) and node id 5. -/
theorem consultas_fuera_de_rango_testigo :
    obtenerGrado grafoEjemplo 5 = -1 ∧ obtenerGradoEntrada grafoEjemplo 5 = -1 ∧
      getVecinos grafoEjemplo 5 = [] ∧ BFS grafoEjemplo 5 2 = [] ∧
      DFS grafoEjemplo 5 = [] ∧ getAristasSubgrafo grafoEjemplo 5 2 = [] :=
  consultas_fuera_de_rango grafoEjemplo 5 (by decide) 2

/-- C9: a file that cannot be opened makes `cargarDatos` return `false`
before touching any state, so the previous graph and all its query
results are unchanged. -/
theorem carga_fallida_preserva (g : GrafoDisperso) (s d : Int) :
    cargarDatos g none = (false, g) ∧
      (cargarDatos g none).2.numNodos = g.numNodos ∧
      (cargarDatos g none).2.numAristas = g.numAristas ∧
      obtenerGrado (cargarDatos g none).2 s = obtenerGrado g s ∧
      obtenerGradoEntrada (cargarDatos g none).2 s = obtenerGradoEntrada g s ∧
      getVecinos (cargarDatos g none).2 s = getVecinos g s ∧
      BFS (cargarDatos g none).2 s d = BFS g s d ∧
      DFS (cargarDatos g none).2 s = DFS g s ∧
      getAristasSubgrafo (cargarDatos g none).2 s d = getAristasSubgrafo g s d :=
  ⟨rfl, rfl, rfl, rfl, rfl, rfl, rfl, rfl, rfl⟩

/-- C10: a file that opens always loads successfully, whatever its
content; if no line parses as an edge the result is the 1-node, 0-edge
graph (`maxNodo` stays 0, so `numNodos = 0 + 1`). -/
theorem carga_exitosa_total (g : GrafoDisperso) (lineas : List (List Char)) :
    (cargarDatos g (some lineas)).1 = true ∧
      (lineas.filterMap procesarLinea = [] →
        (cargarDatos g (some lineas)).2.numNodos = 1 ∧
        (cargarDatos g (some lineas)).2.numAristas = 0) := by
  constructor
  · rfl
  · intro h
    have h2 : cargarDatos g (some lineas)
        = (true, construirCSR g
            ((lineas.filterMap procesarLinea).map (fun a => (a.1.toNat, a.2.toNat)))
            ((lineas.filterMap procesarLinea).foldl
              (fun m a => max m (max a.1 a.2)) (0 : Int)).toNat) := rfl
    rw [h2, h]
    exact ⟨rfl, rfl⟩

/-- Witness for C10: a file of one comment line and one garbage line. -/
theorem carga_exitosa_total_testigo :
    (cargarDatos GrafoDisperso.inicial
        (some [['#', ' ', 'c'], ['h', 'o', 'l', 'a']])).1 = true ∧
      (cargarDatos GrafoDisperso.inicial
        (some [['#', ' ', 'c'], ['h', 'o', 'l', 'a']])).2.numNodos = 1 ∧
      (cargarDatos GrafoDisperso.inicial
        (some [['#', ' ', 'c'], ['h', 'o', 'l', 'a']])).2.numAristas = 0 :=
  ⟨(carga_exitosa_total GrafoDisperso.inicial _).1,
    (carga_exitosa_total GrafoDisperso.inicial _).2 (by decide)⟩

/-! ## C7: which lines contribute an edge -/

theorem cabeza_dropWhile {α : Type} (p : α → Bool) :
    ∀ (l : List α) (c : α), (l.dropWhile p).head? = some c → p c = false := by
  intro l
  induction l with
  | nil => intro c h; simp [List.dropWhile] at h
  | cons a t ih =>
    intro c h
    rw [List.dropWhile_cons] at h
    by_cases hp : p a = true
    · rw [if_pos hp] at h
      exact ih c h
    · rw [if_neg hp] at h
      simp only [List.head?_cons, Option.some.injEq] at h
      rw [← h]
      simpa using hp

theorem segmento_takeWhile {α : Type} (p : α → Bool) :
    ∀ (a r : List α), (∀ c ∈ a, p c = true) → (∀ c, r.head? = some c → p c = false) →
      (a ++ r).takeWhile p = a ∧ (a ++ r).dropWhile p = r := by
  intro a
  induction a with
  | nil =>
    intro r _ hr
    cases r with
    | nil => exact ⟨rfl, rfl⟩
    | cons c t =>
      have hc := hr c rfl
      constructor
      · simp [List.takeWhile_cons, hc]
      · simp [List.dropWhile_cons, hc]
  | cons x a ih =>
    intro r ha hr
    have hx : p x = true := ha x (List.mem_cons_self x a)
    have ih2 := ih r (fun c hc => ha c (List.mem_cons_of_mem x hc)) hr
    constructor
    · simp [List.takeWhile_cons, hx, ih2.1]
    · simp [List.dropWhile_cons, hx, ih2.2]

theorem espacio_no_digito (c : Char) (h : esEspacio c = true) : esDigito c = false := by
  simp only [esEspacio, Bool.or_eq_true, decide_eq_true_eq] at h
  rcases h with ((((h | h) | h) | h) | h) | h <;> subst h <;> decide

/-- Unfolding `extraerEntero` when the whitespace-stripped input is known. -/
theorem extraerEntero_eval (s : List Char) (c : Char) (rest : List Char)
    (h : s.dropWhile esEspacio = c :: rest) :
    extraerEntero s =
      (if c = '-' then (leerDigitos rest).map (fun p => (-(p.1 : Int), p.2))
       else if c = '+' then (leerDigitos rest).map (fun p => ((p.1 : Int), p.2))
       else (leerDigitos (c :: rest)).map (fun p => ((p.1 : Int), p.2))) := by
  unfold extraerEntero
  rw [h]

/-- If the first whitespace-separated token of `s` is wholly an integer,
extraction succeeds and consumes exactly up to the end of that token. -/
theorem extraerEntero_exito (s : List Char)
    (ht : esEnteroCompleto ((s.dropWhile esEspacio).takeWhile (fun c => !esEspacio c)) = true) :
    ∃ v, extraerEntero s
        = some (v, (s.dropWhile esEspacio).dropWhile (fun c => !esEspacio c)) := by
  have hsplit : s.dropWhile esEspacio
      = (s.dropWhile esEspacio).takeWhile (fun c => !esEspacio c)
          ++ (s.dropWhile esEspacio).dropWhile (fun c => !esEspacio c) :=
    (List.takeWhile_append_dropWhile _ _).symm
  have hr : ∀ c, ((s.dropWhile esEspacio).dropWhile (fun c => !esEspacio c)).head?
      = some c → esDigito c = false := by
    intro c hc
    have hns := cabeza_dropWhile (fun c => !esEspacio c) _ c hc
    exact espacio_no_digito c (by simpa using hns)
  cases ht' : (s.dropWhile esEspacio).takeWhile (fun c => !esEspacio c) with
  | nil => rw [ht'] at ht; simp [esEnteroCompleto] at ht
  | cons c ds =>
    rw [ht'] at ht hsplit
    simp only [esEnteroCompleto] at ht
    have heval := extraerEntero_eval s c
      (ds ++ (s.dropWhile esEspacio).dropWhile (fun c => !esEspacio c)) hsplit
    by_cases h1 : (c = '-' || c = '+') = true
    · rw [if_pos h1] at ht
      simp only [Bool.and_eq_true] at ht
      obtain ⟨hne, hdig⟩ := ht
      have hdig2 : ∀ x ∈ ds, esDigito x = true := by
        simpa [List.all_eq_true] using hdig
      have hseg := segmento_takeWhile esDigito ds _ hdig2 hr
      have hnee : ds.isEmpty = false := by simpa using hne
      have hld : leerDigitos (ds ++ (s.dropWhile esEspacio).dropWhile (fun c => !esEspacio c))
          = some (ds.foldl (fun a c => 10 * a + (c.toNat - 48)) 0,
              (s.dropWhile esEspacio).dropWhile (fun c => !esEspacio c)) := by
        unfold leerDigitos
        rw [hseg.1, hseg.2, if_neg (by simp [hnee])]
      simp only [Bool.or_eq_true] at h1
      rcases h1 with h2 | h2
      · have hc : c = '-' := by simpa using h2
        refine ⟨-(ds.foldl (fun a c => 10 * a + (c.toNat - 48)) 0 : Nat), ?_⟩
        rw [heval, if_pos hc, hld]
        rfl
      · have hc : c = '+' := by simpa using h2
        refine ⟨(ds.foldl (fun a c => 10 * a + (c.toNat - 48)) 0 : Nat), ?_⟩
        rw [heval, if_neg (by rw [hc]; decide), if_pos hc, hld]
        rfl
    · rw [if_neg h1] at ht
      simp only [Bool.and_eq_true] at ht
      obtain ⟨hcd, hdig⟩ := ht
      have hdig2 : ∀ x ∈ ds, esDigito x = true := by
        simpa [List.all_eq_true] using hdig
      have hall : ∀ x ∈ c :: ds, esDigito x = true := by
        intro x hx
        rcases List.mem_cons.mp hx with rfl | hx
        · exact hcd
        · exact hdig2 x hx
      have hseg := segmento_takeWhile esDigito (c :: ds) _ hall hr
      have hld : leerDigitos ((c :: ds) ++ (s.dropWhile esEspacio).dropWhile (fun c => !esEspacio c))
          = some ((c :: ds).foldl (fun a c => 10 * a + (c.toNat - 48)) 0,
              (s.dropWhile esEspacio).dropWhile (fun c => !esEspacio c)) := by
        unfold leerDigitos
        rw [hseg.1, hseg.2, if_neg (by simp)]
      have hcm : ¬ c = '-' := fun he => h1 (by simp [he])
      have hcp : ¬ c = '+' := fun he => h1 (by simp [he])
      refine ⟨((c :: ds).foldl (fun a c => 10 * a + (c.toNat - 48)) 0 : Nat), ?_⟩
      rw [heval, if_neg hcm, if_neg hcp, ← List.cons_append, hld]
      rfl

/-- A line containing exactly two whitespace-separated integers is
accepted by the double extraction. -/
theorem dosEnteros_extraen (l : List Char) (h : contieneDosEnteros l = true) :
    ∃ a b, extraerDosEnteros l = some (a, b) := by
  simp only [contieneDosEnteros, Bool.and_eq_true] at h
  obtain ⟨⟨h1, h2⟩, _⟩ := h
  obtain ⟨v1, hv1⟩ := extraerEntero_exito l h1
  obtain ⟨v2, hv2⟩ := extraerEntero_exito
    ((l.dropWhile esEspacio).dropWhile (fun c => !esEspacio c)) h2
  refine ⟨v1, v2, ?_⟩
  simp only [extraerDosEnteros, hv1, hv2]

/-- C7, counterexample: the line `1 2 3` does not contain exactly two
whitespace-separated integers, yet the parser accepts it and contributes
the edge `(1, 2)` — trailing content after the second integer is ignored. -/
theorem linea_con_tres_enteros :
    procesarLinea ['1', ' ', '2', ' ', '3'] = some (1, 2) ∧
      contieneDosEnteros ['1', ' ', '2', ' ', '3'] = false := by decide

/-- C7, amended: a non-empty line not starting with `#` contributes an
edge iff two `istream` integer extractions from the start of the line
succeed (trailing content after the second integer being ignored); in
particular every line containing exactly two whitespace-separated
integers contributes an edge. -/
theorem aceptacion_linea (l : List Char) (hne : l ≠ [])
    (hnc : l.head? ≠ some '#') :
    procesarLinea l = extraerDosEnteros l ∧
      (contieneDosEnteros l = true → ∃ a b, procesarLinea l = some (a, b)) := by
  obtain ⟨c, t, rfl⟩ : ∃ c t, l = c :: t := by
    cases l with
    | nil => exact absurd rfl hne
    | cons c t => exact ⟨c, t, rfl⟩
  have hc : ¬ c = '#' := fun h => hnc (by rw [h]; rfl)
  have hp : procesarLinea (c :: t) = extraerDosEnteros (c :: t) := by
    simp only [procesarLinea]
    rw [if_neg hc]
  refine ⟨hp, fun h => ?_⟩
  rw [hp]
  exact dosEnteros_extraen _ h

/-- Witness for the amended C7 at the line `3 4`. -/
theorem aceptacion_linea_testigo :
    procesarLinea ['3', ' ', '4'] = extraerDosEnteros ['3', ' ', '4'] ∧
      (∃ a b, procesarLinea ['3', ' ', '4'] = some (a, b)) :=
  ⟨(aceptacion_linea ['3', ' ', '4'] (by decide) (by decide)).1,
    (aceptacion_linea ['3', ' ', '4'] (by decide) (by decide)).2 (by decide)⟩

/-! ## C8: the highest-out-degree scan -/

/-- Out-degree as a natural number, `row_ptr[i+1] - row_ptr[i]`. -/
def gradoNat (g : GrafoDisperso) (i : Nat) : Nat :=
  g.row_ptr.getD (i + 1) 0 - g.row_ptr.getD i 0

/-- Unpacking `esWF`. -/
theorem esWF_desglose (g : GrafoDisperso) (h : esWF g = true) :
    g.row_ptr.length = g.numNodos + 1 ∧
    g.row_ptr.getD g.numNodos 0 = g.column_indices.length ∧
    (∀ i, i < g.numNodos → g.row_ptr.getD i 0 ≤ g.row_ptr.getD (i + 1) 0) ∧
    (∀ w ∈ g.column_indices, w < g.numNodos) ∧
    (∀ i, i < g.numNodos → listaOrdenada (vecinosDe g i) = true) := by
  simp only [esWF, Bool.and_eq_true, List.all_eq_true, List.mem_range,
    decide_eq_true_eq, beq_iff_eq] at h
  obtain ⟨⟨⟨⟨h1, h2⟩, h3⟩, h4⟩, h5⟩ := h
  exact ⟨h1, h2, h3, h4, h5⟩

/-- For a valid node id (with monotone `row_ptr`) the `int` subtraction of
the source equals the natural out-degree. -/
theorem obtenerGrado_en_rango (g : GrafoDisperso) (i : Nat) (hi : i < g.numNodos)
    (hmono : g.row_ptr.getD i 0 ≤ g.row_ptr.getD (i + 1) 0) :
    obtenerGrado g (i : Int) = (gradoNat g i : Int) := by
  unfold obtenerGrado gradoNat
  rw [if_neg (by omega)]
  have htn : ((i : Int)).toNat = i := Int.toNat_natCast i
  rw [htn]
  omega

/-- The scan of `getNodoMayorGrado` after `k` iterations: either every
degree seen so far is zero and the accumulator still holds `(0, -1)`, or
it holds the strict maximum and the least index attaining it. -/
theorem escaneo_mayor (g : GrafoDisperso)
    (hmono : ∀ i, i < g.numNodos → g.row_ptr.getD i 0 ≤ g.row_ptr.getD (i + 1) 0) :
    ∀ k, k ≤ g.numNodos →
      ((∀ i, i < k → gradoNat g i = 0) ∧
        (List.range k).foldl
          (fun (p : Int × Int) (i : Nat) =>
            if obtenerGrado g (i : Int) > p.1 then (obtenerGrado g (i : Int), (i : Int)) else p)
          (0, -1) = (0, -1)) ∨
      (∃ j, j < k ∧ 0 < gradoNat g j ∧
        (List.range k).foldl
          (fun (p : Int × Int) (i : Nat) =>
            if obtenerGrado g (i : Int) > p.1 then (obtenerGrado g (i : Int), (i : Int)) else p)
          (0, -1) = ((gradoNat g j : Int), (j : Int)) ∧
        (∀ i, i < k → gradoNat g i ≤ gradoNat g j) ∧
        (∀ i, i < j → gradoNat g i < gradoNat g j)) := by
  intro k
  induction k with
  | zero =>
    intro _
    exact Or.inl ⟨fun i hi => absurd hi (Nat.not_lt_zero i), rfl⟩
  | succ k ih =>
    intro hk
    have hkn : k < g.numNodos := hk
    have hgk := obtenerGrado_en_rango g k hkn (hmono k hkn)
    rw [List.range_succ, List.foldl_append, List.foldl_cons, List.foldl_nil]
    rcases ih (Nat.le_of_lt hkn) with ⟨hall, hest⟩ | ⟨j, hj, hjpos, hest, hmax, hstrict⟩
    · rw [hest]
      by_cases hdk : 0 < gradoNat g k
      · rw [if_pos (by dsimp only; rw [hgk]; exact_mod_cast hdk)]
        refine Or.inr ⟨k, Nat.lt_succ_self k, hdk, by rw [hgk], ?_, ?_⟩
        · intro i hi
          rcases Nat.lt_succ_iff_lt_or_eq.mp hi with hi | rfl
          · rw [hall i hi]; exact Nat.zero_le _
          · exact Nat.le_refl _
        · intro i hi
          rw [hall i hi]; exact hdk
      · have hdk0 : gradoNat g k = 0 := Nat.eq_zero_of_not_pos hdk
        rw [if_neg (by dsimp only; rw [hgk, hdk0]; simp)]
        refine Or.inl ⟨?_, rfl⟩
        intro i hi
        rcases Nat.lt_succ_iff_lt_or_eq.mp hi with hi | rfl
        · exact hall i hi
        · exact hdk0
    · rw [hest]
      by_cases hdk : gradoNat g j < gradoNat g k
      · rw [if_pos (by dsimp only; rw [hgk]; exact_mod_cast hdk)]
        refine Or.inr ⟨k, Nat.lt_succ_self k, Nat.lt_of_le_of_lt (Nat.zero_le _) hdk,
          by rw [hgk], ?_, ?_⟩
        · intro i hi
          rcases Nat.lt_succ_iff_lt_or_eq.mp hi with hi | rfl
          · exact Nat.le_of_lt (Nat.lt_of_le_of_lt (hmax i hi) hdk)
          · exact Nat.le_refl _
        · intro i hi
          exact Nat.lt_of_le_of_lt (hmax i hi) hdk
      · rw [if_neg (by dsimp only; rw [hgk]; exact_mod_cast hdk)]
        refine Or.inr ⟨j, Nat.lt_succ_of_lt hj, hjpos, rfl, ?_, hstrict⟩
        intro i hi
        rcases Nat.lt_succ_iff_lt_or_eq.mp hi with hi | rfl
        · exact hmax i hi
        · exact Nat.le_of_not_lt hdk

/-- C8: on a well-formed graph `getNodoMayorGrado` returns `(-1, 0)` when
there are no nodes or every out-degree is zero, and otherwise the pair
`(j, degree j)` where `j` is the least node attaining the strict maximum
out-degree. -/
theorem nodo_mayor_grado (g : GrafoDisperso) (hwf : esWF g = true) :
    ((g.numNodos = 0 ∨ ∀ i, i < g.numNodos → gradoNat g i = 0) →
        getNodoMayorGrado g = (-1, 0)) ∧
    (∀ i, i < g.numNodos → 0 < gradoNat g i →
      ∃ j, j < g.numNodos ∧ getNodoMayorGrado g = ((j : Int), (gradoNat g j : Int)) ∧
        (∀ k, k < g.numNodos → gradoNat g k ≤ gradoNat g j) ∧
        (∀ k, k < j → gradoNat g k < gradoNat g j)) := by
  obtain ⟨-, -, hmono, -, -⟩ := esWF_desglose g hwf
  have hdef : getNodoMayorGrado g =
      ((((List.range g.numNodos).foldl
          (fun (p : Int × Int) (i : Nat) =>
            if obtenerGrado g (i : Int) > p.1 then (obtenerGrado g (i : Int), (i : Int)) else p)
          (0, -1))).2,
        (((List.range g.numNodos).foldl
          (fun (p : Int × Int) (i : Nat) =>
            if obtenerGrado g (i : Int) > p.1 then (obtenerGrado g (i : Int), (i : Int)) else p)
          (0, -1))).1) := rfl
  rcases escaneo_mayor g hmono g.numNodos (Nat.le_refl _) with
    ⟨hall, hest⟩ | ⟨j, hj, hjpos, hest, hmax, hstrict⟩
  · constructor
    · intro _
      rw [hdef, hest]
    · intro i hi hipos
      exact absurd (hall i hi) (by omega)
  · constructor
    · intro h
      rcases h with h | h
      · exact absurd hj (by omega)
      · exact absurd (h j hj) (by omega)
    · intro i hi hipos
      exact ⟨j, hj, by rw [hdef, hest], hmax, hstrict⟩

/-- Witness for C8 at the loaded example graph: node 0 has the strict
maximum out-degree 2. -/
theorem nodo_mayor_grado_testigo :
    ∃ j, j < grafoEjemplo.numNodos ∧
      getNodoMayorGrado grafoEjemplo = ((j : Int), (gradoNat grafoEjemplo j : Int)) ∧
      (∀ k, k < grafoEjemplo.numNodos → gradoNat grafoEjemplo k ≤ gradoNat grafoEjemplo j) ∧
      (∀ k, k < j → gradoNat grafoEjemplo k < gradoNat grafoEjemplo j) :=
  (nodo_mayor_grado grafoEjemplo (by decide)).2 0 (by decide) (by decide)

/-! ## Reachability and shortest hop-distance over the CSR rows -/

/-- `AlcanzaEn g s v d`: there is a directed walk of exactly `d` hops
from `s` to `v` along the CSR rows. -/
inductive AlcanzaEn (g : GrafoDisperso) (s : Nat) : Nat → Nat → Prop
  | inicio : AlcanzaEn g s s 0
  | paso {u d w} : AlcanzaEn g s u d → w ∈ vecinosDe g u → AlcanzaEn g s w (d + 1)

def Alcanzable (g : GrafoDisperso) (s v : Nat) : Prop :=
  ∃ d, AlcanzaEn g s v d

/-- `v` is at shortest hop-distance exactly `d` from `s`. -/
def esDistancia (g : GrafoDisperso) (s v d : Nat) : Prop :=
  AlcanzaEn g s v d ∧ ∀ e, e < d → ¬ AlcanzaEn g s v e

theorem esDistancia_funcional {g : GrafoDisperso} {s v d e : Nat}
    (h1 : esDistancia g s v d) (h2 : esDistancia g s v e) : d = e := by
  rcases Nat.lt_trichotomy d e with h | h | h
  · exact absurd h1.1 (h2.2 d h)
  · exact h
  · exact absurd h2.1 (h1.2 e h)

theorem alcanza_tiene_distancia (g : GrafoDisperso) (s v : Nat) :
    ∀ d, AlcanzaEn g s v d → ∃ e, e ≤ d ∧ esDistancia g s v e := by
  intro d
  induction d using Nat.strong_induction_on with
  | _ d ih =>
    intro h
    by_cases hmin : ∀ e, e < d → ¬ AlcanzaEn g s v e
    · exact ⟨d, Nat.le_refl d, h, hmin⟩
    · push_neg at hmin
      obtain ⟨e, he, halc⟩ := hmin
      obtain ⟨f, hf, hdist⟩ := ih e he halc
      exact ⟨f, Nat.le_trans hf (Nat.le_of_lt he), hdist⟩

theorem alcanza_cero {g : GrafoDisperso} {s v : Nat} (h : AlcanzaEn g s v 0) : v = s := by
  cases h
  rfl

theorem esDistancia_inicio (g : GrafoDisperso) (s : Nat) : esDistancia g s s 0 :=
  ⟨AlcanzaEn.inicio, fun e he => absurd he (Nat.not_lt_zero e)⟩

theorem esDistancia_predecesor {g : GrafoDisperso} {s w d : Nat}
    (h : esDistancia g s w (d + 1)) :
    ∃ u, esDistancia g s u d ∧ w ∈ vecinosDe g u := by
  obtain ⟨halc, hmin⟩ := h
  cases halc with
  | paso hu hw =>
    rename_i u
    obtain ⟨e, he, hud⟩ := alcanza_tiene_distancia g s u d hu
    have hed : e = d := by
      by_contra hne
      have helt : e < d := Nat.lt_of_le_of_ne he hne
      exact hmin (e + 1) (by omega) (AlcanzaEn.paso hud.1 hw)
    rw [hed] at hud
    exact ⟨u, hud, hw⟩

/-- The keys (node ids) of a list of `(node, level)` pairs. -/
def claves (l : List (Nat × Nat)) : List Nat := l.map Prod.fst

/-! ## Characterizing one BFS expansion -/

theorem bfsExpand_paso (nivel w : Nat) (vs : List Nat) (p : List Bool × List (Nat × Nat)) :
    bfsExpand (w :: vs) nivel p =
      bfsExpand vs nivel
        (if p.1.getD w false then p
         else if w < p.1.length then (p.1.set w true, p.2 ++ [(w, nivel + 1)]) else p) := rfl

/-- Everything the invariant proofs need about the inner neighbour loop:
the queue grows by a duplicate-free block of previously unmarked
neighbours tagged `nivel + 1`, all neighbours end up marked, and the
marks grow by exactly that block. -/
theorem bfsExpand_carac (nivel : Nat) :
    ∀ (vecinos : List Nat) (vis : List Bool) (cola : List (Nat × Nat)),
      (∀ w ∈ vecinos, w < vis.length) →
      ∃ nuevos : List Nat,
        (bfsExpand vecinos nivel (vis, cola)).2
            = cola ++ nuevos.map (fun w => (w, nivel + 1)) ∧
        nuevos.Nodup ∧
        (∀ w ∈ nuevos, w ∈ vecinos ∧ vis.getD w false = false) ∧
        (∀ w ∈ vecinos, (bfsExpand vecinos nivel (vis, cola)).1.getD w false = true) ∧
        (∀ u, (bfsExpand vecinos nivel (vis, cola)).1.getD u false = true ↔
          (vis.getD u false = true ∨ u ∈ nuevos)) ∧
        (bfsExpand vecinos nivel (vis, cola)).1.length = vis.length := by
  intro vecinos
  induction vecinos with
  | nil =>
    intro vis cola _
    exact ⟨[], by simp [bfsExpand], List.nodup_nil, by simp, by simp,
      fun u => by simp [bfsExpand], rfl⟩
  | cons w vs ih =>
    intro vis cola hsub
    have hwlt : w < vis.length := hsub w (List.mem_cons_self w vs)
    by_cases hw : vis.getD w false = true
    · have hpaso : bfsExpand (w :: vs) nivel (vis, cola) = bfsExpand vs nivel (vis, cola) := by
        rw [bfsExpand_paso]
        dsimp only
        rw [if_pos hw]
      obtain ⟨nuevos, h1, h2, h3, h4, h5, h6⟩ :=
        ih vis cola (fun x hx => hsub x (List.mem_cons_of_mem w hx))
      refine ⟨nuevos, ?_, h2, ?_, ?_, ?_, ?_⟩
      · rw [hpaso]; exact h1
      · exact fun x hx => ⟨List.mem_cons_of_mem w (h3 x hx).1, (h3 x hx).2⟩
      · intro x hx
        rw [hpaso]
        rcases List.mem_cons.mp hx with rfl | hx
        · exact (h5 x).mpr (Or.inl hw)
        · exact h4 x hx
      · intro u; rw [hpaso]; exact h5 u
      · rw [hpaso]; exact h6
    · have hwf : vis.getD w false = false := by simpa using hw
      have hpaso : bfsExpand (w :: vs) nivel (vis, cola)
          = bfsExpand vs nivel (vis.set w true, cola ++ [(w, nivel + 1)]) := by
        rw [bfsExpand_paso]
        dsimp only
        rw [if_neg hw, if_pos hwlt]
      have hsub2 : ∀ x ∈ vs, x < (vis.set w true).length := by
        intro x hx
        rw [List.length_set]
        exact hsub x (List.mem_cons_of_mem w hx)
      obtain ⟨nuevos, h1, h2, h3, h4, h5, h6⟩ :=
        ih (vis.set w true) (cola ++ [(w, nivel + 1)]) hsub2
      have hwnuevo : w ∉ nuevos := by
        intro hwn
        have h := (h3 w hwn).2
        rw [getD_set_self true false vis w hwlt] at h
        simp at h
      refine ⟨w :: nuevos, ?_, ?_, ?_, ?_, ?_, ?_⟩
      · rw [hpaso, h1]
        simp [List.append_assoc]
      · exact List.nodup_cons.mpr ⟨hwnuevo, h2⟩
      · intro x hx
        rcases List.mem_cons.mp hx with rfl | hx
        · exact ⟨List.mem_cons_self x vs, hwf⟩
        · have hxvs := (h3 x hx).1
          have hxne : x ≠ w := fun he => hwnuevo (he ▸ hx)
          have h := (h3 x hx).2
          rw [getD_set_other true false vis w x (Ne.symm hxne)] at h
          exact ⟨List.mem_cons_of_mem w hxvs, h⟩
      · intro x hx
        rw [hpaso]
        rcases List.mem_cons.mp hx with rfl | hx
        · exact (h5 x).mpr (Or.inl (getD_set_self true false vis x hwlt))
        · exact h4 x hx
      · intro u
        rw [hpaso, h5 u]
        by_cases hu : u = w
        · subst hu
          constructor
          · intro _
            exact Or.inr (List.mem_cons_self u nuevos)
          · intro _
            exact Or.inl (getD_set_self true false vis u hwlt)
        · rw [getD_set_other true false vis w u (fun he => hu he.symm)]
          constructor
          · intro h
            rcases h with h | h
            · exact Or.inl h
            · exact Or.inr (List.mem_cons_of_mem w h)
          · intro h
            rcases h with h | h
            · exact Or.inl h
            · rcases List.mem_cons.mp h with he | h
              · exact absurd he hu
              · exact Or.inr h
      · rw [hpaso, h6, List.length_set]

/-! ## Unfolding the BFS loop -/

theorem bfsLoop_nil (g : GrafoDisperso) (prof : Int) (vis : List Bool)
    (res : List (Nat × Nat)) : bfsLoop g prof vis [] res = res := by
  simp [bfsLoop]

theorem bfsLoop_cons (g : GrafoDisperso) (prof : Int) (vis : List Bool)
    (v nivel : Nat) (resto res : List (Nat × Nat)) :
    bfsLoop g prof vis ((v, nivel) :: resto) res =
      if (nivel : Int) ≥ prof then bfsLoop g prof vis resto (res ++ [(v, nivel)])
      else bfsLoop g prof (bfsExpand (vecinosDe g v) nivel (vis, resto)).1
        (bfsExpand (vecinosDe g v) nivel (vis, resto)).2 (res ++ [(v, nivel)]) := by
  simp only [bfsLoop]

/-! ## The BFS loop invariant -/

/-- Invariant of `bfsLoop` relating the visited marks, the queue and the
accumulated output to the graph's shortest-distance structure.
`claves res ++ claves cola` is the set of *discovered* nodes. -/
structure InvBFS (g : GrafoDisperso) (prof : Int) (s : Nat)
    (vis : List Bool) (cola res : List (Nat × Nat)) : Prop where
  hlen : vis.length = g.numNodos
  htodos : ∀ p ∈ res ++ cola, p.1 < g.numNodos
  hmark : ∀ v, v < g.numNodos →
    (vis.getD v false = true ↔ v ∈ claves res ++ claves cola)
  hnodup : (claves res ++ claves cola).Nodup
  hdist : ∀ p ∈ res ++ cola, esDistancia g s p.1 p.2
  hcota : ∀ p ∈ res ++ cola, (p.2 : Int) ≤ prof
  hexp : ∀ p ∈ res, (p.2 : Int) < prof →
    ∀ w ∈ vecinosDe g p.1, w ∈ claves res ++ claves cola
  hord : List.Pairwise (fun a b => a ≤ b) (cola.map Prod.snd)
  hdif : ∀ p ∈ cola, ∀ q ∈ cola, p.2 ≤ q.2 + 1
  hini : s ∈ claves res ++ claves cola
  hproc : ∀ u e, esDistancia g s u e → (e : Int) ≤ prof →
    (∀ p ∈ cola, e < p.2) → u ∈ claves res

theorem claves_mem {l : List (Nat × Nat)} {u : Nat} :
    u ∈ claves l ↔ ∃ d, (u, d) ∈ l := by
  unfold claves
  rw [List.mem_map]
  constructor
  · rintro ⟨p, hp, rfl⟩
    exact ⟨p.2, hp⟩
  · rintro ⟨d, hd⟩
    exact ⟨(u, d), hd, rfl⟩

/-- With an empty queue the invariant yields the two conclusions of the
BFS specification. -/
theorem bfsInv_final (g : GrafoDisperso) (prof : Int) (s : Nat)
    (vis : List Bool) (res : List (Nat × Nat))
    (inv : InvBFS g prof s vis [] res) :
    (res.map Prod.fst).Nodup ∧
      (∀ v d, (v, d) ∈ res ↔ (esDistancia g s v d ∧ (d : Int) ≤ prof)) := by
  have hnd : (res.map Prod.fst).Nodup := by
    have := inv.hnodup
    simpa [claves] using this
  refine ⟨hnd, fun v d => ⟨fun hm => ?_, fun hm => ?_⟩⟩
  · exact ⟨inv.hdist (v, d) (List.mem_append_left _ hm),
      inv.hcota (v, d) (List.mem_append_left _ hm)⟩
  · have hv : v ∈ claves res := inv.hproc v d hm.1 hm.2 (fun p hp => absurd hp (by simp))
    obtain ⟨e, he⟩ := claves_mem.mp hv
    have : esDistancia g s v e := inv.hdist (v, e) (List.mem_append_left _ he)
    have hde : e = d := esDistancia_funcional this hm.1
    rw [hde] at he
    exact he

/-- Key ordering fact: when the head of the queue carries level `nivel`,
every node whose shortest distance is exactly `nivel` (and within the
depth bound) has already been discovered. -/
theorem distancia_nivel_descubierta (g : GrafoDisperso) (prof : Int) (s : Nat)
    (vis : List Bool) (v nivel : Nat) (resto res : List (Nat × Nat))
    (inv : InvBFS g prof s vis ((v, nivel) :: resto) res)
    (u : Nat) (hd : esDistancia g s u nivel) (hp : (nivel : Int) ≤ prof) :
    u ∈ claves res ++ claves ((v, nivel) :: resto) := by
  cases nivel with
  | zero =>
    have : u = s := alcanza_cero hd.1
    rw [this]
    exact inv.hini
  | succ e =>
    obtain ⟨u', hu', hmemvec⟩ := esDistancia_predecesor hd
    have hcolas : ∀ p ∈ (v, (e + 1 : Nat)) :: resto, e < p.2 := by
      intro p hp2
      rcases List.mem_cons.mp hp2 with rfl | hp2
      · omega
      · have := List.pairwise_cons.mp inv.hord
        have h2 := this.1 p.2 (List.mem_map_of_mem Prod.snd hp2)
        omega
    have hres : u' ∈ claves res :=
      inv.hproc u' e hu' (by push_cast at hp ⊢; omega) hcolas
    obtain ⟨l, hl⟩ := claves_mem.mp hres
    have hld : esDistancia g s u' l := inv.hdist (u', l) (List.mem_append_left _ hl)
    have hle : l = e := esDistancia_funcional hld hu'
    rw [hle] at hl
    exact inv.hexp (u', e) hl (by push_cast at hp ⊢; omega) u hmemvec

theorem claves_append (l1 l2 : List (Nat × Nat)) :
    claves (l1 ++ l2) = claves l1 ++ claves l2 := by
  simp [claves]

theorem claves_cons (p : Nat × Nat) (l : List (Nat × Nat)) :
    claves (p :: l) = p.1 :: claves l := rfl

/-- Preservation of the invariant when the dequeued node has reached the
depth bound: it moves to the output, its neighbours are not expanded. -/
theorem bfsInv_paso_salta (g : GrafoDisperso) (prof : Int) (s : Nat)
    (vis : List Bool) (v nivel : Nat) (resto res : List (Nat × Nat))
    (inv : InvBFS g prof s vis ((v, nivel) :: resto) res)
    (hniv : (nivel : Int) ≥ prof) :
    InvBFS g prof s vis resto (res ++ [(v, nivel)]) := by
  have hclaves : claves (res ++ [(v, nivel)]) ++ claves resto
      = claves res ++ claves ((v, nivel) :: resto) := by
    rw [claves_append, claves_cons]
    simp [claves]
  have hmem : ∀ p : Nat × Nat,
      p ∈ (res ++ [(v, nivel)]) ++ resto ↔ p ∈ res ++ (v, nivel) :: resto := by
    intro p
    simp [List.mem_append, List.mem_cons, or_assoc]
  refine ⟨inv.hlen, ?_, ?_, ?_, ?_, ?_, ?_, ?_, ?_, ?_, ?_⟩
  · exact fun p hp => inv.htodos p ((hmem p).mp hp)
  · intro u hu
    rw [hclaves]
    exact inv.hmark u hu
  · rw [hclaves]
    exact inv.hnodup
  · exact fun p hp => inv.hdist p ((hmem p).mp hp)
  · exact fun p hp => inv.hcota p ((hmem p).mp hp)
  · intro p hp hlt w hw
    rw [hclaves]
    rcases List.mem_append.mp hp with hp | hp
    · exact inv.hexp p hp hlt w hw
    · have hpv : p = (v, nivel) := by simpa using hp
      subst hpv
      exact absurd (hlt : (nivel : Int) < prof) (by omega)
  · exact (List.pairwise_cons.mp inv.hord).2
  · exact fun p hp q hq =>
      inv.hdif p (List.mem_cons_of_mem _ hp) q (List.mem_cons_of_mem _ hq)
  · rw [hclaves]
    exact inv.hini
  · intro u e hd he hcola
    by_cases hlt : e < nivel
    · have hold := inv.hproc u e hd he (fun p hp => by
        rcases List.mem_cons.mp hp with rfl | hp
        · exact hlt
        · exact hcola p hp)
      rw [claves_append]
      exact List.mem_append_left _ hold
    · have he2 : e = nivel := by omega
      subst he2
      have hdesc := distancia_nivel_descubierta g prof s vis v e resto res inv u hd he
      rcases List.mem_append.mp hdesc with h | h
      · rw [claves_append]
        exact List.mem_append_left _ h
      · rw [claves_cons] at h
        rcases List.mem_cons.mp h with rfl | h
        · rw [claves_append]
          exact List.mem_append_right _ (by simp [claves])
        · obtain ⟨l, hl⟩ := claves_mem.mp h
          have hld : esDistancia g s u l :=
            inv.hdist (u, l) (by
              refine List.mem_append_right _ (List.mem_cons_of_mem _ hl))
          have hle : l = e := esDistancia_funcional hld hd
          rw [hle] at hl
          exact absurd (hcola (u, e) hl) (by omega)

theorem pairwise_map_const (nuevos : List Nat) (c : Nat) :
    List.Pairwise (fun a b => a ≤ b) ((nuevos.map (fun w => (w, c))).map Prod.snd) := by
  induction nuevos with
  | nil => simp
  | cons w t ih =>
    simp only [List.map_cons]
    refine List.pairwise_cons.mpr ⟨?_, ih⟩
    intro b hb
    simp only [List.mem_map] at hb
    obtain ⟨q, ⟨x, _, rfl⟩, rfl⟩ := hb
    exact Nat.le_refl _

/-- Preservation of the invariant when the dequeued node is expanded:
its unvisited neighbours are marked and enqueued at the next level. -/
theorem bfsInv_paso_expande (g : GrafoDisperso) (prof : Int) (s : Nat)
    (vis : List Bool) (v nivel : Nat) (resto res : List (Nat × Nat))
    (hvec : ∀ u, u < g.numNodos → ∀ w ∈ vecinosDe g u, w < g.numNodos)
    (inv : InvBFS g prof s vis ((v, nivel) :: resto) res)
    (hniv : ¬ (nivel : Int) ≥ prof) :
    InvBFS g prof s (bfsExpand (vecinosDe g v) nivel (vis, resto)).1
      (bfsExpand (vecinosDe g v) nivel (vis, resto)).2 (res ++ [(v, nivel)]) := by
  have hproflt : (nivel : Int) < prof := by omega
  have hvn : v < g.numNodos := inv.htodos (v, nivel) (by simp)
  have hvlt : ∀ w ∈ vecinosDe g v, w < vis.length := by
    intro w hw
    rw [inv.hlen]
    exact hvec v hvn w hw
  obtain ⟨nuevos, hcola2, hnd, hnu, hmarcados, hiff, hlong⟩ :=
    bfsExpand_carac nivel (vecinosDe g v) vis resto hvlt
  have hnum : ∀ w ∈ nuevos, w < g.numNodos := fun w hw => hvec v hvn w (hnu w hw).1
  have hfresco : ∀ w ∈ nuevos, w ∉ claves res ++ claves ((v, nivel) :: resto) := by
    intro w hw hmem
    have h := (inv.hmark w (hnum w hw)).mpr hmem
    rw [(hnu w hw).2] at h
    simp at h
  have hmapid : List.map (Prod.fst ∘ fun w => (w, nivel + 1)) nuevos = nuevos := by
    have : (Prod.fst ∘ fun w : Nat => (w, nivel + 1)) = fun w => w := rfl
    rw [this, List.map_id']
  have harr : claves (res ++ [(v, nivel)])
        ++ claves (bfsExpand (vecinosDe g v) nivel (vis, resto)).2
      = (claves res ++ claves ((v, nivel) :: resto)) ++ nuevos := by
    rw [hcola2, claves_append, claves_append, claves_cons]
    simp [claves, List.map_map, List.append_assoc, hmapid]
  have hdisc : ∀ u, u ∈ claves (res ++ [(v, nivel)])
        ++ claves (bfsExpand (vecinosDe g v) nivel (vis, resto)).2 ↔
      (u ∈ claves res ++ claves ((v, nivel) :: resto) ∨ u ∈ nuevos) := by
    intro u
    rw [harr]
    simp [List.mem_append, or_assoc]
  have hdv : esDistancia g s v nivel := inv.hdist (v, nivel) (by simp)
  have hdnuevos : ∀ w ∈ nuevos, esDistancia g s w (nivel + 1) := by
    intro w hw
    constructor
    · exact AlcanzaEn.paso hdv.1 (hnu w hw).1
    · intro e he halc
      obtain ⟨f, hf, hdf⟩ := alcanza_tiene_distancia g s w e halc
      have hwdisc : w ∈ claves res ++ claves ((v, nivel) :: resto) := by
        by_cases hlt : f < nivel
        · have hold := inv.hproc w f hdf (by omega) (fun p hp => by
            rcases List.mem_cons.mp hp with rfl | hp
            · exact hlt
            · have h2 := (List.pairwise_cons.mp inv.hord).1 p.2
                (List.mem_map_of_mem Prod.snd hp)
              omega)
          exact List.mem_append_left _ hold
        · have hf2 : f = nivel := by omega
          subst hf2
          exact distancia_nivel_descubierta g prof s vis v f resto res inv w hdf
            (by omega)
      exact hfresco w hw hwdisc
  refine ⟨?_, ?_, ?_, ?_, ?_, ?_, ?_, ?_, ?_, ?_, ?_⟩
  · rw [hlong]
    exact inv.hlen
  · intro p hp
    rcases List.mem_append.mp hp with hp | hp
    · rcases List.mem_append.mp hp with hp | hp
      · exact inv.htodos p (List.mem_append_left _ hp)
      · have h2 : p = (v, nivel) := by simpa using hp
        subst h2
        exact hvn
    · rw [hcola2] at hp
      rcases List.mem_append.mp hp with hp | hp
      · exact inv.htodos p (List.mem_append_right _ (List.mem_cons_of_mem _ hp))
      · obtain ⟨w, hw, rfl⟩ := List.mem_map.mp hp
        exact hnum w hw
  · intro u hu
    rw [hiff u, hdisc u, inv.hmark u hu]
  · rw [harr]
    exact List.nodup_append.mpr ⟨inv.hnodup, hnd, fun a ha han => hfresco a han ha⟩
  · intro p hp
    rcases List.mem_append.mp hp with hp | hp
    · rcases List.mem_append.mp hp with hp | hp
      · exact inv.hdist p (List.mem_append_left _ hp)
      · have h2 : p = (v, nivel) := by simpa using hp
        subst h2
        exact hdv
    · rw [hcola2] at hp
      rcases List.mem_append.mp hp with hp | hp
      · exact inv.hdist p (List.mem_append_right _ (List.mem_cons_of_mem _ hp))
      · obtain ⟨w, hw, rfl⟩ := List.mem_map.mp hp
        exact hdnuevos w hw
  · intro p hp
    rcases List.mem_append.mp hp with hp | hp
    · rcases List.mem_append.mp hp with hp | hp
      · exact inv.hcota p (List.mem_append_left _ hp)
      · have h2 : p = (v, nivel) := by simpa using hp
        subst h2
        exact Int.le_of_lt hproflt
    · rw [hcola2] at hp
      rcases List.mem_append.mp hp with hp | hp
      · exact inv.hcota p (List.mem_append_right _ (List.mem_cons_of_mem _ hp))
      · obtain ⟨w, hw, rfl⟩ := List.mem_map.mp hp
        show ((nivel + 1 : Nat) : Int) ≤ prof
        push_cast
        omega
  · intro p hp hlt w hw
    apply (hdisc w).mpr
    rcases List.mem_append.mp hp with hp | hp
    · exact Or.inl (inv.hexp p hp hlt w hw)
    · have h2 : p = (v, nivel) := by simpa using hp
      subst h2
      have hm := hmarcados w hw
      rw [hiff w] at hm
      rcases hm with hm | hm
      · exact Or.inl ((inv.hmark w (hvec v hvn w hw)).mp hm)
      · exact Or.inr hm
  · rw [hcola2, List.map_append]
    rw [List.pairwise_append]
    refine ⟨(List.pairwise_cons.mp inv.hord).2, pairwise_map_const nuevos (nivel + 1), ?_⟩
    intro a ha b hb
    obtain ⟨q, hq, rfl⟩ := List.mem_map.mp ha
    obtain ⟨q2, hq2, rfl⟩ := List.mem_map.mp hb
    obtain ⟨w2, _, rfl⟩ := List.mem_map.mp hq2
    have h2 := inv.hdif q (List.mem_cons_of_mem _ hq) (v, nivel) (List.mem_cons_self _ _)
    simpa using h2
  · intro p hp q hq
    rw [hcola2] at hp hq
    rcases List.mem_append.mp hp with hp | hp <;> rcases List.mem_append.mp hq with hq | hq
    · exact inv.hdif p (List.mem_cons_of_mem _ hp) q (List.mem_cons_of_mem _ hq)
    · obtain ⟨w, hw, rfl⟩ := List.mem_map.mp hq
      have h2 := inv.hdif p (List.mem_cons_of_mem _ hp) (v, nivel) (List.mem_cons_self _ _)
      show p.2 ≤ nivel + 1 + 1
      omega
    · obtain ⟨w, hw, rfl⟩ := List.mem_map.mp hp
      have h2 := (List.pairwise_cons.mp inv.hord).1 q.2 (List.mem_map_of_mem Prod.snd hq)
      show nivel + 1 ≤ q.2 + 1
      omega
    · obtain ⟨w1, hw1, rfl⟩ := List.mem_map.mp hp
      obtain ⟨w2, hw2, rfl⟩ := List.mem_map.mp hq
      show nivel + 1 ≤ nivel + 1 + 1
      omega
  · apply (hdisc s).mpr
    exact Or.inl inv.hini
  · intro u e
    induction e using Nat.strong_induction_on generalizing u with
    | _ e ih =>
      intro hd he hq
      by_cases hlt : e < nivel
      · have hold := inv.hproc u e hd he (fun p hp => by
          rcases List.mem_cons.mp hp with rfl | hp
          · exact hlt
          · exact hq p (by rw [hcola2]; exact List.mem_append_left _ hp))
        rw [claves_append]
        exact List.mem_append_left _ hold
      · by_cases heq : e = nivel
        · subst heq
          have hdesc := distancia_nivel_descubierta g prof s vis v e resto res inv u hd he
          rcases List.mem_append.mp hdesc with h | h
          · rw [claves_append]
            exact List.mem_append_left _ h
          · rw [claves_cons] at h
            rcases List.mem_cons.mp h with rfl | h
            · rw [claves_append]
              exact List.mem_append_right _ (by simp [claves])
            · obtain ⟨l, hl⟩ := claves_mem.mp h
              have hld := inv.hdist (u, l)
                (List.mem_append_right _ (List.mem_cons_of_mem _ hl))
              have hle : l = e := esDistancia_funcional hld hd
              rw [hle] at hl
              have h3 := hq (u, e) (by rw [hcola2]; exact List.mem_append_left _ hl)
              have h4 : e < e := h3
              omega
        · have hgt : nivel < e := by omega
          cases e with
          | zero => omega
          | succ e2 =>
            obtain ⟨u', hu', hvecu⟩ := esDistancia_predecesor hd
            have hu'mem : u' ∈ claves (res ++ [(v, nivel)]) :=
              ih e2 (Nat.lt_succ_self e2) u' hu' (by omega)
                (fun p hp => by have h3 := hq p hp; omega)
            have descartaResto : u ∉ claves resto := by
              intro h2
              obtain ⟨l2, hl2⟩ := claves_mem.mp h2
              have hld2 := inv.hdist (u, l2)
                (List.mem_append_right _ (List.mem_cons_of_mem _ hl2))
              have hle2 : l2 = e2 + 1 := esDistancia_funcional hld2 hd
              rw [hle2] at hl2
              have h3 := hq (u, e2 + 1) (by rw [hcola2]; exact List.mem_append_left _ hl2)
              have h4 : e2 + 1 < e2 + 1 := h3
              omega
            have enNuevo : u ∈ claves res ++ claves ((v, nivel) :: resto) →
                u ∈ claves (res ++ [(v, nivel)]) := by
              intro humem
              rcases List.mem_append.mp humem with h2 | h2
              · rw [claves_append]
                exact List.mem_append_left _ h2
              · rw [claves_cons] at h2
                rcases List.mem_cons.mp h2 with rfl | h2
                · rw [claves_append]
                  exact List.mem_append_right _ (by simp [claves])
                · exact absurd h2 descartaResto
            rw [claves_append] at hu'mem
            rcases List.mem_append.mp hu'mem with h | h
            · obtain ⟨l, hl⟩ := claves_mem.mp h
              have hld := inv.hdist (u', l) (List.mem_append_left _ hl)
              have hle : l = e2 := esDistancia_funcional hld hu'
              rw [hle] at hl
              have humem := inv.hexp (u', e2) hl (by omega) u hvecu
              exact enNuevo humem
            · have hu'v : u' = v := by simpa [claves] using h
              rw [hu'v] at hu' hvecu
              have he2n : e2 = nivel := esDistancia_funcional hu' hdv
              have hm := hmarcados u hvecu
              rw [hiff u] at hm
              rcases hm with hm | hm
              · exact enNuevo ((inv.hmark u (hvec v hvn u hvecu)).mp hm)
              · have hpair : (u, nivel + 1) ∈ (bfsExpand (vecinosDe g v) nivel (vis, resto)).2 := by
                  rw [hcola2]
                  exact List.mem_append_right _ (List.mem_map_of_mem _ hm)
                have h3 := hq (u, nivel + 1) hpair
                have h4 : e2 + 1 < nivel + 1 := h3
                omega

theorem getD_replicate {α : Type} (a : α) :
    ∀ (n i : Nat), (List.replicate n a).getD i a = a := by
  intro n
  induction n with
  | zero => intro i; simp [List.getD]
  | succ n ih =>
    intro i
    cases i with
    | zero => rfl
    | succ i => simp only [List.replicate, List.getD_cons_succ]; exact ih i

/-- The master run lemma: from any state satisfying the invariant, the
loop's final output is duplicate-free and holds exactly the nodes within
the depth bound, each at its shortest distance. -/
theorem bfsLoop_correcto (g : GrafoDisperso) (prof : Int) (s : Nat)
    (hvec : ∀ u, u < g.numNodos → ∀ w ∈ vecinosDe g u, w < g.numNodos) :
    ∀ (n : Nat) (vis : List Bool) (cola res : List (Nat × Nat)),
      vis.count false + cola.length ≤ n →
      InvBFS g prof s vis cola res →
      ((bfsLoop g prof vis cola res).map Prod.fst).Nodup ∧
      (∀ v d, (v, d) ∈ bfsLoop g prof vis cola res ↔
        (esDistancia g s v d ∧ (d : Int) ≤ prof)) := by
  intro n
  induction n with
  | zero =>
    intro vis cola res hb inv
    have hcola : cola = [] := List.length_eq_zero.mp (by omega)
    subst hcola
    rw [bfsLoop_nil]
    exact bfsInv_final g prof s vis res inv
  | succ n ihn =>
    intro vis cola res hb inv
    cases cola with
    | nil =>
      rw [bfsLoop_nil]
      exact bfsInv_final g prof s vis res inv
    | cons cab resto =>
      obtain ⟨v, nivel⟩ := cab
      rw [bfsLoop_cons]
      by_cases hniv : (nivel : Int) ≥ prof
      · rw [if_pos hniv]
        apply ihn
        · simp only [List.length_cons] at hb
          omega
        · exact bfsInv_paso_salta g prof s vis v nivel resto res inv hniv
      · rw [if_neg hniv]
        apply ihn
        · have hm := bfsExpand_medida nivel (vecinosDe g v) (vis, resto)
          dsimp only at hm
          simp only [List.length_cons] at hb
          omega
        · exact bfsInv_paso_expande g prof s vis v nivel resto res hvec inv hniv

/-- The invariant holds at the initial BFS state: start node marked and
enqueued at level 0. -/
theorem invBFS_inicial (g : GrafoDisperso) (prof : Int) (hprof : 0 ≤ prof)
    (s : Nat) (hs : s < g.numNodos) :
    InvBFS g prof s ((List.replicate g.numNodos false).set s true) [(s, 0)] [] := by
  have hsl : s < (List.replicate g.numNodos false).length := by
    rw [List.length_replicate]
    exact hs
  have hgetd : ∀ u, u ≠ s →
      ((List.replicate g.numNodos false).set s true).getD u false = false := by
    intro u hu
    rw [getD_set_other true false _ s u (fun he => hu he.symm)]
    exact getD_replicate false g.numNodos u
  refine ⟨?_, ?_, ?_, ?_, ?_, ?_, ?_, ?_, ?_, ?_, ?_⟩
  · rw [List.length_set, List.length_replicate]
  · intro p hp
    have h2 : p = (s, 0) := by simpa using hp
    subst h2
    exact hs
  · intro u hu
    show _ ↔ u ∈ claves [] ++ claves [(s, 0)]
    simp only [claves, List.map_nil, List.map_cons, List.nil_append]
    by_cases he : u = s
    · subst he
      constructor
      · intro _
        exact List.mem_singleton.mpr rfl
      · intro _
        exact getD_set_self true false _ u hsl
    · rw [hgetd u he]
      simp [he]
  · simp [claves]
  · intro p hp
    have h2 : p = (s, 0) := by simpa using hp
    subst h2
    exact esDistancia_inicio g s
  · intro p hp
    have h2 : p = (s, 0) := by simpa using hp
    subst h2
    exact hprof
  · intro p hp
    simp at hp
  · simp
  · intro p hp q hq
    have h2 : p = (s, 0) := by simpa using hp
    subst h2
    omega
  · simp [claves]
  · intro u e hd he hc
    have := hc (s, 0) (by simp)
    exact absurd this (Nat.not_lt_zero e)

/-- C1: on a well-formed loaded graph, for every valid start node and
every depth bound `≥ 0`, BFS outputs each node whose shortest hop-distance
from the start is at most the bound exactly once (so nodes at distance
exactly `maxDepth` are included, and nothing reachable only through them
appears), paired with that exact shortest distance; no other pair occurs. -/
theorem BFS_correcto (g : GrafoDisperso) (hwf : esWF g = true)
    (s : Nat) (hs : s < g.numNodos) (prof : Int) (hprof : 0 ≤ prof) :
    ((BFS g (s : Int) prof).map Prod.fst).Nodup ∧
    (∀ v d, (v, d) ∈ BFS g (s : Int) prof ↔
      (esDistancia g s v d ∧ (d : Int) ≤ prof)) := by
  obtain ⟨hlen1, hlast, hmono, hcol, hsort⟩ := esWF_desglose g hwf
  have hvec : ∀ u, u < g.numNodos → ∀ w ∈ vecinosDe g u, w < g.numNodos := by
    intro u _ w hw
    exact hcol w (vecinosDe_sub g u w hw)
  have hBFS : BFS g (s : Int) prof = bfsLoop g prof
      ((List.replicate g.numNodos false).set s true) [(s, 0)] [] := by
    unfold BFS
    rw [if_neg (by omega)]
    simp [Int.toNat_natCast]
  have inv0 := invBFS_inicial g prof hprof s hs
  rw [hBFS]
  exact bfsLoop_correcto g prof s hvec
    (((List.replicate g.numNodos false).set s true).count false + 1)
    _ _ _ (by simp) inv0

/-- Witness for C1 at the loaded example graph, start node 0, depth 1. -/
theorem BFS_correcto_testigo :
    ((BFS grafoEjemplo ((0 : Nat) : Int) 1).map Prod.fst).Nodup ∧
    (∀ v d, (v, d) ∈ BFS grafoEjemplo ((0 : Nat) : Int) 1 ↔
      (esDistancia grafoEjemplo 0 v d ∧ (d : Int) ≤ 1)) :=
  BFS_correcto grafoEjemplo (by decide) 0 (by decide) 1 (by decide)

/-! ## C6: subgraph edge extraction is a bounded BFS recording edges -/

theorem bfsLoop_acum (g : GrafoDisperso) (prof : Int) :
    ∀ (n : Nat) (vis : List Bool) (cola res : List (Nat × Nat)),
      vis.count false + cola.length ≤ n →
      bfsLoop g prof vis cola res = res ++ bfsLoop g prof vis cola [] := by
  intro n
  induction n with
  | zero =>
    intro vis cola res hb
    have hcola : cola = [] := List.length_eq_zero.mp (by omega)
    subst hcola
    rw [bfsLoop_nil, bfsLoop_nil, List.append_nil]
  | succ n ih =>
    intro vis cola res hb
    cases cola with
    | nil => rw [bfsLoop_nil, bfsLoop_nil, List.append_nil]
    | cons cab resto =>
      obtain ⟨v, nivel⟩ := cab
      rw [bfsLoop_cons, bfsLoop_cons]
      by_cases hniv : (nivel : Int) ≥ prof
      · rw [if_pos hniv, if_pos hniv]
        have hb2 : vis.count false + resto.length ≤ n := by
          simp only [List.length_cons] at hb
          omega
        rw [ih vis resto (res ++ [(v, nivel)]) hb2, ih vis resto ([] ++ [(v, nivel)]) hb2]
        simp [List.append_assoc]
      · rw [if_neg hniv, if_neg hniv]
        have hm := bfsExpand_medida nivel (vecinosDe g v) (vis, resto)
        dsimp only at hm
        have hb2 : (bfsExpand (vecinosDe g v) nivel (vis, resto)).1.count false
            + (bfsExpand (vecinosDe g v) nivel (vis, resto)).2.length ≤ n := by
          simp only [List.length_cons] at hb
          omega
        rw [ih _ _ (res ++ [(v, nivel)]) hb2, ih _ _ ([] ++ [(v, nivel)]) hb2]
        simp [List.append_assoc]

theorem subLoop_nil (g : GrafoDisperso) (prof : Int) (enSub : List Nat)
    (aristas : List (Nat × Nat)) : subLoop g prof enSub [] aristas = aristas := by
  simp [subLoop]

theorem subLoop_cons (g : GrafoDisperso) (prof : Int) (enSub : List Nat)
    (v nivel : Nat) (resto aristas : List (Nat × Nat)) :
    subLoop g prof enSub ((v, nivel) :: resto) aristas =
      if (nivel : Int) ≥ prof then subLoop g prof enSub resto aristas
      else
        subLoop g prof
          (subExpand v nivel (vecinosDe g v) (enSub, resto, aristas)).1
          (subExpand v nivel (vecinosDe g v) (enSub, resto, aristas)).2.1
          (subExpand v nivel (vecinosDe g v) (enSub, resto, aristas)).2.2 := by
  simp only [subLoop]

/-- The two inner neighbour loops run in lockstep: the membership set and
the visited array stay in sync, the queues stay equal, and the subgraph
loop appends exactly the full edge row of `v`. -/
theorem subExpand_bfsExpand_sinc (g : GrafoDisperso) (v nivel : Nat) :
    ∀ (vs S : List Nat) (vis : List Bool) (cola acc : List (Nat × Nat)),
      vis.length = g.numNodos →
      (∀ w, w < g.numNodos → (w ∈ S ↔ vis.getD w false = true)) →
      (∀ w ∈ vs, w < g.numNodos) →
      (subExpand v nivel vs (S, cola, acc)).2.1 = (bfsExpand vs nivel (vis, cola)).2 ∧
      (subExpand v nivel vs (S, cola, acc)).2.2 = acc ++ vs.map (fun w => (v, w)) ∧
      (∀ w, w < g.numNodos →
        (w ∈ (subExpand v nivel vs (S, cola, acc)).1 ↔
          (bfsExpand vs nivel (vis, cola)).1.getD w false = true)) ∧
      (bfsExpand vs nivel (vis, cola)).1.length = g.numNodos := by
  intro vs
  induction vs with
  | nil =>
    intro S vis cola acc hlen hsinc _
    exact ⟨rfl, by simp [subExpand], hsinc, hlen⟩
  | cons w ws ih =>
    intro S vis cola acc hlen hsinc hvs
    have hwn : w < g.numNodos := hvs w (List.mem_cons_self w ws)
    have hwlen : w < vis.length := by rw [hlen]; exact hwn
    rw [subExpand_paso, bfsExpand_paso]
    dsimp only
    by_cases hw : w ∈ S
    · have hvw : vis.getD w false = true := (hsinc w hwn).mp hw
      rw [if_pos hw, if_pos hvw]
      obtain ⟨h1, h2, h3, h4⟩ := ih S vis cola (acc ++ [(v, w)]) hlen hsinc
        (fun x hx => hvs x (List.mem_cons_of_mem w hx))
      exact ⟨h1, by rw [h2]; simp, h3, h4⟩
    · have hvw : ¬ vis.getD w false = true := fun h => hw ((hsinc w hwn).mpr h)
      rw [if_neg hw, if_neg hvw, if_pos hwlen]
      have hsinc2 : ∀ x, x < g.numNodos →
          (x ∈ w :: S ↔ (vis.set w true).getD x false = true) := by
        intro x hx
        by_cases hxw : x = w
        · subst hxw
          constructor
          · intro _
            exact getD_set_self true false vis x hwlen
          · intro _
            exact List.mem_cons_self x S
        · rw [getD_set_other true false vis w x (fun he => hxw he.symm)]
          constructor
          · intro h
            rcases List.mem_cons.mp h with he | h
            · exact absurd he hxw
            · exact (hsinc x hx).mp h
          · intro h
            exact List.mem_cons_of_mem w ((hsinc x hx).mpr h)
      obtain ⟨h1, h2, h3, h4⟩ := ih (w :: S) (vis.set w true) (cola ++ [(w, nivel + 1)])
        (acc ++ [(v, w)]) (by rw [List.length_set]; exact hlen) hsinc2
        (fun x hx => hvs x (List.mem_cons_of_mem w hx))
      exact ⟨h1, by rw [h2]; simp, h3, h4⟩

/-- Lockstep simulation of the whole loops: the subgraph loop emits, for
every node the BFS dequeues strictly below the bound, that node's entire
edge row, in dequeue order. -/
theorem subLoop_sim (g : GrafoDisperso) (prof : Int)
    (hvec : ∀ u, u < g.numNodos → ∀ w ∈ vecinosDe g u, w < g.numNodos) :
    ∀ (n : Nat) (S : List Nat) (vis : List Bool) (cola acc : List (Nat × Nat)),
      vis.count false + cola.length ≤ n →
      vis.length = g.numNodos →
      (∀ w, w < g.numNodos → (w ∈ S ↔ vis.getD w false = true)) →
      (∀ p ∈ cola, p.1 < g.numNodos) →
      subLoop g prof S cola acc =
        acc ++ ((bfsLoop g prof vis cola []).filter
          (fun p => decide ((p.2 : Int) < prof))).flatMap
          (fun p => (vecinosDe g p.1).map (fun w => (p.1, w))) := by
  intro n
  induction n with
  | zero =>
    intro S vis cola acc hb _ _ _
    have hcola : cola = [] := List.length_eq_zero.mp (by omega)
    subst hcola
    rw [subLoop_nil, bfsLoop_nil]
    simp
  | succ n ih =>
    intro S vis cola acc hb hlen hsinc hcolan
    cases cola with
    | nil =>
      rw [subLoop_nil, bfsLoop_nil]
      simp
    | cons cab resto =>
      obtain ⟨v, nivel⟩ := cab
      have hvn : v < g.numNodos := hcolan (v, nivel) (List.mem_cons_self _ _)
      rw [subLoop_cons, bfsLoop_cons]
      by_cases hniv : (nivel : Int) ≥ prof
      · rw [if_pos hniv, if_pos hniv]
        have hb2 : vis.count false + resto.length ≤ n := by
          simp only [List.length_cons] at hb
          omega
        rw [bfsLoop_acum g prof n vis resto ([] ++ [(v, nivel)]) hb2]
        rw [ih S vis resto acc hb2 hlen hsinc
          (fun p hp => hcolan p (List.mem_cons_of_mem _ hp))]
        have hdrop : ¬ ((nivel : Int) < prof) := by omega
        simp [List.filter_append, List.filter_cons, hdrop]
      · rw [if_neg hniv, if_neg hniv]
        have hvsn : ∀ w ∈ vecinosDe g v, w < g.numNodos := hvec v hvn
        obtain ⟨h1, h2, h3, h4⟩ := subExpand_bfsExpand_sinc g v nivel (vecinosDe g v)
          S vis resto acc hlen hsinc hvsn
        obtain ⟨nuevos, hcola2, -, hnu, -, -, -⟩ := bfsExpand_carac nivel (vecinosDe g v)
          vis resto (by intro w hw; rw [hlen]; exact hvsn w hw)
        have hcolan2 : ∀ p ∈ (bfsExpand (vecinosDe g v) nivel (vis, resto)).2,
            p.1 < g.numNodos := by
          intro p hp
          rw [hcola2] at hp
          rcases List.mem_append.mp hp with hp | hp
          · exact hcolan p (List.mem_cons_of_mem _ hp)
          · obtain ⟨w, hw, rfl⟩ := List.mem_map.mp hp
            exact hvsn w (hnu w hw).1
        have hm := bfsExpand_medida nivel (vecinosDe g v) (vis, resto)
        dsimp only at hm
        have hb2 : (bfsExpand (vecinosDe g v) nivel (vis, resto)).1.count false
            + (bfsExpand (vecinosDe g v) nivel (vis, resto)).2.length ≤ n := by
          simp only [List.length_cons] at hb
          omega
        rw [h1, h2]
        rw [ih (subExpand v nivel (vecinosDe g v) (S, resto, acc)).1
          (bfsExpand (vecinosDe g v) nivel (vis, resto)).1
          (bfsExpand (vecinosDe g v) nivel (vis, resto)).2
          (acc ++ (vecinosDe g v).map (fun w => (v, w))) hb2 h4 h3 hcolan2]
        rw [bfsLoop_acum g prof n _ _ ([] ++ [(v, nivel)]) hb2]
        have hkeep : ((nivel : Int) < prof) := by omega
        simp [List.filter_append, List.filter_cons, hkeep, List.append_assoc]

/-- C6: on a well-formed loaded graph, for every valid start node and
every depth bound, the subgraph extraction outputs, for each node the
bounded BFS dequeues at a level strictly below the bound (each such node
is dequeued exactly once), every one of its outgoing edges — including
edges toward already-discovered nodes — in dequeue order; neighbours are
enqueued only at first discovery, which is why the dequeue sequence is
exactly the BFS output. -/
theorem aristas_subgrafo_correcto (g : GrafoDisperso) (hwf : esWF g = true)
    (s : Nat) (hs : s < g.numNodos) (prof : Int) :
    getAristasSubgrafo g (s : Int) prof =
      ((BFS g (s : Int) prof).filter (fun p => decide ((p.2 : Int) < prof))).flatMap
        (fun p => (vecinosDe g p.1).map (fun w => (p.1, w))) ∧
    ((BFS g (s : Int) prof).map Prod.fst).Nodup := by
  obtain ⟨hlen1, hlast, hmono, hcol, hsort⟩ := esWF_desglose g hwf
  have hvec : ∀ u, u < g.numNodos → ∀ w ∈ vecinosDe g u, w < g.numNodos := by
    intro u _ w hw
    exact hcol w (vecinosDe_sub g u w hw)
  have hbfs : BFS g (s : Int) prof = bfsLoop g prof
      ((List.replicate g.numNodos false).set s true) [(s, 0)] [] := by
    unfold BFS
    rw [if_neg (by omega)]
    simp [Int.toNat_natCast]
  have hsl : s < (List.replicate g.numNodos false).length := by
    rw [List.length_replicate]
    exact hs
  have hsinc : ∀ w, w < g.numNodos →
      (w ∈ [s] ↔ ((List.replicate g.numNodos false).set s true).getD w false = true) := by
    intro w hw
    by_cases he : w = s
    · subst he
      constructor
      · intro _
        exact getD_set_self true false _ w hsl
      · intro _
        exact List.mem_singleton.mpr rfl
    · rw [getD_set_other true false _ s w (fun h2 => he h2.symm)]
      rw [getD_replicate false g.numNodos w]
      simp [he]
  constructor
  · have hsub : getAristasSubgrafo g (s : Int) prof
        = subLoop g prof [s] [(s, 0)] [] := by
      unfold getAristasSubgrafo
      rw [if_neg (by omega)]
      simp [Int.toNat_natCast]
    rw [hsub, hbfs]
    exact subLoop_sim g prof hvec
      (((List.replicate g.numNodos false).set s true).count false + 1)
      [s] _ [(s, 0)] [] (by simp) (by simp) hsinc
      (fun p hp => by
        have h2 : p = (s, 0) := by simpa using hp
        subst h2
        exact hs)
  · by_cases hp : (0 : Int) ≥ prof
    · have hval : BFS g (s : Int) prof = [(s, 0)] := by
        rw [hbfs, bfsLoop_cons, if_pos (by exact_mod_cast hp), bfsLoop_nil]
        simp
      rw [hval]
      simp
    · have h0 : (0 : Int) ≤ prof := by omega
      have hcorr := bfsLoop_correcto g prof s hvec
        (((List.replicate g.numNodos false).set s true).count false + 1)
        _ _ _ (by simp) (invBFS_inicial g prof h0 s hs)
      rw [hbfs]
      exact hcorr.1

/-- Witness for C6 at the loaded example graph, start node 0, depth 1. -/
theorem aristas_subgrafo_correcto_testigo :
    getAristasSubgrafo grafoEjemplo ((0 : Nat) : Int) 1 =
      ((BFS grafoEjemplo ((0 : Nat) : Int) 1).filter
        (fun p => decide ((p.2 : Int) < 1))).flatMap
        (fun p => (vecinosDe grafoEjemplo p.1).map (fun w => (p.1, w))) ∧
    ((BFS grafoEjemplo ((0 : Nat) : Int) 1).map Prod.fst).Nodup :=
  aristas_subgrafo_correcto grafoEjemplo (by decide) 0 (by decide) 1

/-! ## C5: DFS — the explicit-stack loop against recursive preorder -/

theorem dfsLoop_nil (g : GrafoDisperso) (vis : List Bool) (res : List Nat) :
    dfsLoop g vis [] res = res := by
  simp [dfsLoop]

theorem dfsLoop_cons (g : GrafoDisperso) (vis : List Bool) (v : Nat)
    (resto res : List Nat) :
    dfsLoop g vis (v :: resto) res =
      if vis.getD v false then dfsLoop g vis resto res
      else if v < vis.length then
        dfsLoop g (vis.set v true)
          ((vecinosDe g v).reverse.foldl
            (fun pila w => if (vis.set v true).getD w false then pila else w :: pila) resto)
          (res ++ [v])
      else dfsLoop g vis resto res := by
  simp only [dfsLoop]

/-- Pushing a row in reverse order, skipping marked nodes, prepends the
ascending filtered row: pop order is ascending. -/
theorem empuje_filtrado (p : Nat → Bool) :
    ∀ (l : List Nat) (st : List Nat),
      l.reverse.foldl (fun pila w => if p w then pila else w :: pila) st
        = l.filter (fun w => !p w) ++ st := by
  intro l
  induction l with
  | nil => intro st; rfl
  | cons w t ih =>
    intro st
    rw [List.reverse_cons, List.foldl_append, ih st]
    simp only [List.foldl_cons, List.foldl_nil, List.filter_cons]
    by_cases hw : p w
    · simp [hw]
    · simp [hw]

theorem dfsLoop_salta (g : GrafoDisperso) (vis : List Bool) :
    ∀ (junk resto res : List Nat), (∀ v ∈ junk, vis.getD v false = true) →
      dfsLoop g vis (junk ++ resto) res = dfsLoop g vis resto res := by
  intro junk
  induction junk with
  | nil => intro resto res _; rfl
  | cons v t ih =>
    intro resto res hm
    rw [List.cons_append, dfsLoop_cons, if_pos (hm v (List.mem_cons_self v t))]
    exact ih resto res (fun x hx => hm x (List.mem_cons_of_mem v hx))

/-- Modelled from the spec: the recursive preorder DFS that the stack
discipline of `GrafoDisperso::DFS` is claimed to reproduce — visit a
node, mark it, emit it, then recurse into its neighbours in (ascending)
row order, skipping already visited nodes.  `fuel` bounds the recursion
depth; any value exceeding the number of unvisited nodes produces the
untruncated recursion (`dfsRecList_fuel`).  Processes a list of pending
sibling nodes and threads the visited marks. -/
def dfsRecList (g : GrafoDisperso) : Nat → List Nat → List Bool → List Nat × List Bool
  | 0, _, vis => ([], vis)
  | _ + 1, [], vis => ([], vis)
  | fuel + 1, w :: ws, vis =>
    if vis.getD w false then dfsRecList g (fuel + 1) ws vis
    else
      (w :: (dfsRecList g fuel (vecinosDe g w) (vis.set w true)).1
          ++ (dfsRecList g (fuel + 1) ws
              (dfsRecList g fuel (vecinosDe g w) (vis.set w true)).2).1,
        (dfsRecList g (fuel + 1) ws
          (dfsRecList g fuel (vecinosDe g w) (vis.set w true)).2).2)
termination_by fuel ws _ => (fuel, ws.length)
decreasing_by
  · apply Prod.Lex.right
    simp
  · apply Prod.Lex.left
    omega
  · apply Prod.Lex.right
    simp
  · apply Prod.Lex.right
    simp

/-- Modelled from the spec: recursive preorder DFS from a start node,
with enough fuel to never truncate. -/
def dfsPreorden (g : GrafoDisperso) (s : Nat) : List Nat :=
  (dfsRecList g (g.numNodos + 1) [s] (List.replicate g.numNodos false)).1

/-- Running the recursive DFS over a worklist of pending sibling lists,
threading the visited marks: the defunctionalized continuation of the
recursion, used to relate it to the explicit stack. -/
def dfsRecPila (g : GrafoDisperso) (fuel : Nat) : List (List Nat) → List Bool → List Nat
  | [], _ => []
  | l :: rest, vis =>
    (dfsRecList g fuel l vis).1
      ++ dfsRecPila g fuel rest (dfsRecList g fuel l vis).2

theorem dfsRecList_cero (g : GrafoDisperso) (ws : List Nat) (vis : List Bool) :
    dfsRecList g 0 ws vis = ([], vis) := by
  simp [dfsRecList]

theorem dfsRecList_vacio (g : GrafoDisperso) (f : Nat) (vis : List Bool) :
    dfsRecList g (f + 1) [] vis = ([], vis) := by
  simp [dfsRecList]

theorem dfsRecList_cons (g : GrafoDisperso) (f w : Nat) (ws : List Nat) (vis : List Bool) :
    dfsRecList g (f + 1) (w :: ws) vis =
      if vis.getD w false then dfsRecList g (f + 1) ws vis
      else
        (w :: (dfsRecList g f (vecinosDe g w) (vis.set w true)).1
            ++ (dfsRecList g (f + 1) ws
                (dfsRecList g f (vecinosDe g w) (vis.set w true)).2).1,
          (dfsRecList g (f + 1) ws
            (dfsRecList g f (vecinosDe g w) (vis.set w true)).2).2) := by
  simp only [dfsRecList]

theorem getD_set_true_mono :
    ∀ (l : List Bool) (i u : Nat), l.getD u false = true →
      (l.set i true).getD u false = true := by
  intro l
  induction l with
  | nil =>
    intro i u h
    simp [List.getD] at h
  | cons b t ih =>
    intro i u h
    cases i with
    | zero =>
      cases u with
      | zero => rfl
      | succ u => exact h
    | succ i =>
      cases u with
      | zero => exact h
      | succ u =>
        simp only [List.set, List.getD_cons_succ] at h ⊢
        exact ih i u h

theorem count_false_set_true_le :
    ∀ (l : List Bool) (i : Nat), (l.set i true).count false ≤ l.count false := by
  intro l
  induction l with
  | nil => intro i; exact Nat.le_refl _
  | cons b t ih =>
    intro i
    cases i with
    | zero =>
      cases b <;> simp [List.count_cons]
    | succ i =>
      simp only [List.set, List.count_cons]
      have := ih i
      omega

/-- The recursive DFS only adds marks, preserves the length of the
visited array, and never increases the number of unvisited nodes. -/
theorem dfsRecList_marcas (g : GrafoDisperso) :
    ∀ (fuel : Nat) (ws : List Nat) (vis : List Bool),
      (∀ u, vis.getD u false = true → (dfsRecList g fuel ws vis).2.getD u false = true) ∧
      (dfsRecList g fuel ws vis).2.length = vis.length ∧
      (dfsRecList g fuel ws vis).2.count false ≤ vis.count false := by
  intro fuel
  induction fuel using Nat.strong_induction_on with
  | _ fuel ihf =>
    intro ws
    induction ws with
    | nil =>
      intro vis
      cases fuel with
      | zero =>
        rw [dfsRecList_cero]
        exact ⟨fun u h => h, rfl, Nat.le_refl _⟩
      | succ f =>
        rw [dfsRecList_vacio]
        exact ⟨fun u h => h, rfl, Nat.le_refl _⟩
    | cons w ws ihw =>
      intro vis
      cases fuel with
      | zero =>
        rw [dfsRecList_cero]
        exact ⟨fun u h => h, rfl, Nat.le_refl _⟩
      | succ f =>
        rw [dfsRecList_cons]
        by_cases hw : vis.getD w false = true
        · rw [if_pos hw]
          exact ihw vis
        · rw [if_neg hw]
          obtain ⟨hm1, hl1, hc1⟩ := ihf f (Nat.lt_succ_self f) (vecinosDe g w) (vis.set w true)
          obtain ⟨hm2, hl2, hc2⟩ :=
            ihw (dfsRecList g f (vecinosDe g w) (vis.set w true)).2
          refine ⟨?_, ?_, ?_⟩
          · intro u hu
            exact hm2 u (hm1 u (getD_set_true_mono vis w u hu))
          · rw [hl2, hl1, List.length_set]
          · calc (dfsRecList g (f + 1) ws
                  (dfsRecList g f (vecinosDe g w) (vis.set w true)).2).2.count false
                ≤ (dfsRecList g f (vecinosDe g w) (vis.set w true)).2.count false := hc2
              _ ≤ (vis.set w true).count false := hc1
              _ ≤ vis.count false := count_false_set_true_le vis w

/-- Any two fuels strictly above the number of unvisited nodes give the
same run of the recursive DFS (on node ids within range). -/
theorem dfsRecList_fuel (g : GrafoDisperso)
    (hvec : ∀ u, u < g.numNodos → ∀ w ∈ vecinosDe g u, w < g.numNodos) :
    ∀ (f1 : Nat) (ws : List Nat) (f2 : Nat) (vis : List Bool),
      vis.length = g.numNodos →
      (∀ w ∈ ws, w < g.numNodos) →
      vis.count false < f1 → vis.count false < f2 →
      dfsRecList g f1 ws vis = dfsRecList g f2 ws vis := by
  intro f1
  induction f1 using Nat.strong_induction_on with
  | _ f1 ihf =>
    intro ws
    induction ws with
    | nil =>
      intro f2 vis hlen hws h1 h2
      cases f1 with
      | zero => omega
      | succ f1 =>
        cases f2 with
        | zero => omega
        | succ f2 => rw [dfsRecList_vacio, dfsRecList_vacio]
    | cons w ws ihw =>
      intro f2 vis hlen hws h1 h2
      cases f1 with
      | zero => omega
      | succ g1 =>
        cases f2 with
        | zero => omega
        | succ g2 =>
          rw [dfsRecList_cons, dfsRecList_cons]
          by_cases hw : vis.getD w false = true
          · rw [if_pos hw, if_pos hw]
            exact ihw (g2 + 1) vis hlen
              (fun x hx => hws x (List.mem_cons_of_mem w hx)) h1 h2
          · rw [if_neg hw, if_neg hw]
            have hwn : w < g.numNodos := hws w (List.mem_cons_self w ws)
            have hwlen : w < vis.length := by rw [hlen]; exact hwn
            have hcount : (vis.set w true).count false + 1 = vis.count false :=
              count_false_set_true vis w hwlen (by simpa using hw)
            have hlen1 : (vis.set w true).length = g.numNodos := by
              rw [List.length_set]
              exact hlen
            have hchild : dfsRecList g g1 (vecinosDe g w) (vis.set w true)
                = dfsRecList g g2 (vecinosDe g w) (vis.set w true) :=
              ihf g1 (Nat.lt_succ_self g1) (vecinosDe g w) g2 (vis.set w true)
                hlen1 (hvec w hwn) (by omega) (by omega)
            rw [hchild]
            obtain ⟨-, hl1, hc1⟩ :=
              dfsRecList_marcas g g2 (vecinosDe g w) (vis.set w true)
            have hsib := ihw (g2 + 1)
              (dfsRecList g g2 (vecinosDe g w) (vis.set w true)).2
              (by rw [hl1]; exact hlen1)
              (fun x hx => hws x (List.mem_cons_of_mem w hx))
              (by omega) (by omega)
            rw [hsib]

theorem filtro_doble {α : Type} (p q : α → Bool) (hpq : ∀ x, p x = true → q x = true) :
    ∀ l : List α, (l.filter q).filter p = l.filter p := by
  intro l
  induction l with
  | nil => rfl
  | cons a t ih =>
    cases hq : q a with
    | true =>
      rw [List.filter_cons, if_pos hq, List.filter_cons, List.filter_cons, ih]
    | false =>
      have hp : p a = false := by
        cases hpa : p a with
        | false => rfl
        | true => rw [hpq a hpa] at hq; exact hq
      rw [List.filter_cons, if_neg (by simp [hq]), List.filter_cons, if_neg (by simp [hp]), ih]

/-- The explicit stack of `GrafoDisperso::DFS` simulates the recursive
preorder DFS: whenever the unvisited parts of the stack and of a worklist
of pending sibling lists agree, the loop emits exactly what the recursive
traversal emits. -/
theorem dfs_sim (g : GrafoDisperso)
    (hvec : ∀ u, u < g.numNodos → ∀ w ∈ vecinosDe g u, w < g.numNodos) :
    ∀ (c : Nat), ∀ (t : Nat), ∀ (vis : List Bool) (stk : List Nat)
      (stks : List (List Nat)) (res : List Nat) (fuel : Nat),
      vis.count false ≤ c →
      stk.length + (stks.map (fun l => l.length + 1)).sum ≤ t →
      vis.length = g.numNodos →
      (∀ w ∈ stk, w < g.numNodos) →
      (∀ l ∈ stks, ∀ w ∈ l, w < g.numNodos) →
      vis.count false < fuel →
      stk.filter (fun x => !vis.getD x false)
        = stks.flatten.filter (fun x => !vis.getD x false) →
      dfsLoop g vis stk res = res ++ dfsRecPila g fuel stks vis := by
  intro c
  induction c using Nat.strong_induction_on with
  | _ c ihc =>
    intro t
    induction t using Nat.strong_induction_on with
    | _ t iht =>
      intro vis stk stks res fuel hc ht hlen hstk hstks hfuel hfil
      cases stks with
      | nil =>
        have h0 : stk.filter (fun x => !vis.getD x false) = [] := by
          rw [hfil]; rfl
        have hall : ∀ v ∈ stk, vis.getD v false = true := by
          intro v hv
          have h2 := List.filter_eq_nil_iff.mp h0 v hv
          simpa using h2
        have h3 := dfsLoop_salta g vis stk [] res hall
        rw [List.append_nil] at h3
        rw [h3, dfsLoop_nil]
        simp [dfsRecPila]
      | cons l rest =>
        cases fuel with
        | zero => omega
        | succ f =>
        cases l with
        | nil =>
          have hpila : dfsRecPila g (f + 1) ([] :: rest) vis
              = dfsRecPila g (f + 1) rest vis := by
            simp [dfsRecPila, dfsRecList_vacio]
          rw [hpila]
          have ht2 : stk.length + (rest.map (fun l => l.length + 1)).sum ≤ t - 1 := by
            simp only [List.map_cons, List.sum_cons] at ht
            omega
          exact iht (t - 1) (by
              simp only [List.map_cons, List.sum_cons] at ht
              omega)
            vis stk rest res (f + 1) hc ht2 hlen hstk
            (fun l2 hl2 => hstks l2 (List.mem_cons_of_mem _ hl2)) hfuel
            (by simpa using hfil)
        | cons w ws =>
          by_cases hw : vis.getD w false = true
          · have hpila : dfsRecPila g (f + 1) ((w :: ws) :: rest) vis
                = dfsRecPila g (f + 1) (ws :: rest) vis := by
              simp only [dfsRecPila]
              rw [dfsRecList_cons, if_pos hw]
            rw [hpila]
            have hws : ∀ l2 ∈ ws :: rest, ∀ x ∈ l2, x < g.numNodos := by
              intro l2 hl2 x hx
              rcases List.mem_cons.mp hl2 with rfl | hl2
              · exact hstks (w :: l2) (List.mem_cons_self _ _) x (List.mem_cons_of_mem w hx)
              · exact hstks l2 (List.mem_cons_of_mem _ hl2) x hx
            refine iht (t - 1) (by
                simp only [List.map_cons, List.sum_cons, List.length_cons] at ht ⊢
                omega)
              vis stk (ws :: rest) res (f + 1) hc (by
                simp only [List.map_cons, List.sum_cons, List.length_cons] at ht ⊢
                omega)
              hlen hstk hws hfuel ?_
            rw [hfil]
            simp only [List.flatten_cons, List.cons_append, List.filter_cons]
            rw [if_neg (by rw [hw]; decide)]
          · have hwn : w < g.numNodos :=
              hstks (w :: ws) (List.mem_cons_self _ _) w (List.mem_cons_self _ _)
            have hwlen : w < vis.length := by rw [hlen]; exact hwn
            have hwf : vis.getD w false = false := by simpa using hw
            have hfil2 : stk.filter (fun x => !vis.getD x false)
                = w :: ((ws ++ rest.flatten).filter (fun x => !vis.getD x false)) := by
              rw [hfil]
              simp only [List.flatten_cons, List.cons_append, List.filter_cons]
              rw [if_pos (by rw [hwf]; rfl)]
            obtain ⟨l₁, l₂, hstke, hjunk, -, hfl₂⟩ := List.filter_eq_cons_iff.mp hfil2
            have hjunk2 : ∀ x ∈ l₁, vis.getD x false = true := by
              intro x hx
              have h2 := hjunk x hx
              simpa using h2
            have hl₂n : ∀ x ∈ l₂, x < g.numNodos := by
              intro x hx
              apply hstk
              rw [hstke]
              exact List.mem_append_right _ (List.mem_cons_of_mem w hx)
            have hcount : (vis.set w true).count false + 1 = vis.count false :=
              count_false_set_true vis w hwlen hwf
            have hchild : dfsRecList g f (vecinosDe g w) (vis.set w true)
                = dfsRecList g (f + 1) (vecinosDe g w) (vis.set w true) :=
              dfsRecList_fuel g hvec f (vecinosDe g w) (f + 1) (vis.set w true)
                (by rw [List.length_set]; exact hlen) (hvec w hwn) (by omega) (by omega)
            have hpila : dfsRecPila g (f + 1) ((w :: ws) :: rest) vis
                = w :: dfsRecPila g (f + 1) ((vecinosDe g w) :: ws :: rest)
                    (vis.set w true) := by
              simp only [dfsRecPila]
              rw [dfsRecList_cons, if_neg hw, ← hchild]
              simp [List.append_assoc]
            rw [hpila, hstke, dfsLoop_salta g vis l₁ (w :: l₂) res hjunk2,
              dfsLoop_cons, if_neg hw, if_pos hwlen,
              empuje_filtrado (fun x => (vis.set w true).getD x false) (vecinosDe g w) l₂]
            have hmono : ∀ x, (!(vis.set w true).getD x false) = true →
                (!vis.getD x false) = true := by
              intro x hx
              cases hx2 : vis.getD x false with
              | false => simp
              | true =>
                rw [getD_set_true_mono vis w x hx2] at hx
                exact hx
            have hfilnueva : ((vecinosDe g w).filter
                  (fun x => !(vis.set w true).getD x false) ++ l₂).filter
                  (fun x => !(vis.set w true).getD x false)
                = ((vecinosDe g w) :: ws :: rest).flatten.filter
                  (fun x => !(vis.set w true).getD x false) := by
              rw [List.filter_append]
              rw [filtro_doble _ _ (fun x hx => hx) (vecinosDe g w)]
              have hlift : l₂.filter (fun x => !(vis.set w true).getD x false)
                  = (ws ++ rest.flatten).filter
                      (fun x => !(vis.set w true).getD x false) := by
                rw [← filtro_doble (fun x => !(vis.set w true).getD x false)
                      (fun x => !vis.getD x false) hmono l₂,
                  hfl₂,
                  filtro_doble (fun x => !(vis.set w true).getD x false)
                      (fun x => !vis.getD x false) hmono (ws ++ rest.flatten)]
              rw [hlift]
              simp [List.flatten_cons, List.filter_append]
            have happ := ihc ((vis.set w true).count false) (by omega)
              (((vecinosDe g w).filter (fun x => !(vis.set w true).getD x false)
                  ++ l₂).length
                + (((vecinosDe g w) :: ws :: rest).map (fun l => l.length + 1)).sum)
              (vis.set w true)
              ((vecinosDe g w).filter (fun x => !(vis.set w true).getD x false) ++ l₂)
              ((vecinosDe g w) :: ws :: rest)
              (res ++ [w]) (f + 1)
              (Nat.le_refl _) (Nat.le_refl _)
              (by rw [List.length_set]; exact hlen)
              (by
                intro x hx
                rcases List.mem_append.mp hx with hx | hx
                · exact hvec w hwn x (List.mem_filter.mp hx).1
                · exact hl₂n x hx)
              (by
                intro l2 hl2 x hx
                rcases List.mem_cons.mp hl2 with rfl | hl2
                · exact hvec w hwn x hx
                · rcases List.mem_cons.mp hl2 with rfl | hl2
                  · exact hstks (w :: l2) (List.mem_cons_self _ _) x
                      (List.mem_cons_of_mem w hx)
                  · exact hstks l2 (List.mem_cons_of_mem _ hl2) x hx)
              (by omega)
              hfilnueva
            rw [happ]
            simp [List.append_assoc]

theorem alcanza_prep (g : GrafoDisperso) {w u x : Nat}
    (hu : u ∈ vecinosDe g w) : Alcanzable g u x → Alcanzable g w x := by
  rintro ⟨d, hd⟩
  induction hd with
  | inicio => exact ⟨1, AlcanzaEn.paso AlcanzaEn.inicio hu⟩
  | paso h1 hmem ih =>
    obtain ⟨e, he⟩ := ih
    exact ⟨e + 1, AlcanzaEn.paso he hmem⟩

/-- Postconditions of the recursive DFS run with sufficient fuel: the
output has no duplicates; the final marks are exactly the initial marks
plus the output; output nodes were unmarked on entry; every pending node
ends marked; every neighbour of an output node ends marked; output nodes
are in range; and every output node is reachable from a pending node. -/
theorem dfsRecList_post (g : GrafoDisperso)
    (hvec : ∀ u, u < g.numNodos → ∀ w ∈ vecinosDe g u, w < g.numNodos) :
    ∀ (fuel : Nat) (ws : List Nat) (vis : List Bool),
      vis.length = g.numNodos →
      (∀ w ∈ ws, w < g.numNodos) →
      vis.count false < fuel →
      (dfsRecList g fuel ws vis).1.Nodup ∧
      (∀ x, (dfsRecList g fuel ws vis).2.getD x false = true ↔
        (vis.getD x false = true ∨ x ∈ (dfsRecList g fuel ws vis).1)) ∧
      (∀ x ∈ (dfsRecList g fuel ws vis).1, vis.getD x false = false) ∧
      (∀ w ∈ ws, (dfsRecList g fuel ws vis).2.getD w false = true) ∧
      (∀ x ∈ (dfsRecList g fuel ws vis).1, ∀ v ∈ vecinosDe g x,
        (dfsRecList g fuel ws vis).2.getD v false = true) ∧
      (∀ x ∈ (dfsRecList g fuel ws vis).1, x < g.numNodos) ∧
      (∀ x ∈ (dfsRecList g fuel ws vis).1, ∃ w ∈ ws, Alcanzable g w x) := by
  intro fuel
  induction fuel using Nat.strong_induction_on with
  | _ fuel ihf =>
    intro ws
    induction ws with
    | nil =>
      intro vis hlen hws hfuel
      cases fuel with
      | zero => omega
      | succ f =>
        rw [dfsRecList_vacio]
        refine ⟨List.nodup_nil, ?_, ?_, ?_, ?_, ?_, ?_⟩
        · intro x; simp
        · intro x hx; simp at hx
        · intro w hw; simp at hw
        · intro x hx; simp at hx
        · intro x hx; simp at hx
        · intro x hx; simp at hx
    | cons w ws ihw =>
      intro vis hlen hws hfuel
      cases fuel with
      | zero => omega
      | succ f =>
        have hwn : w < g.numNodos := hws w (List.mem_cons_self _ _)
        have hwlen : w < vis.length := by rw [hlen]; exact hwn
        have hwsr : ∀ u ∈ ws, u < g.numNodos :=
          fun u hu => hws u (List.mem_cons_of_mem _ hu)
        rw [dfsRecList_cons]
        by_cases hw : vis.getD w false = true
        · rw [if_pos hw]
          obtain ⟨ha, hb, hc, hd, he, hf, hg⟩ := ihw vis hlen hwsr hfuel
          obtain ⟨hm, -, -⟩ := dfsRecList_marcas g (f + 1) ws vis
          refine ⟨ha, hb, hc, ?_, he, hf, ?_⟩
          · intro u hu
            rcases List.mem_cons.mp hu with rfl | hu
            · exact hm u hw
            · exact hd u hu
          · intro x hx
            obtain ⟨u, hu, hux⟩ := hg x hx
            exact ⟨u, List.mem_cons_of_mem _ hu, hux⟩
        · rw [if_neg hw]
          have hwf2 : vis.getD w false = false := by
            cases h2 : vis.getD w false with
            | false => rfl
            | true => exact absurd h2 hw
          have hset : (vis.set w true).getD w false = true :=
            getD_set_self true false vis w hwlen
          have hcount : (vis.set w true).count false + 1 = vis.count false :=
            count_false_set_true vis w hwlen hwf2
          obtain ⟨ha1, hb1, hc1, hd1, he1, hf1, hg1⟩ :=
            ihf f (Nat.lt_succ_self f) (vecinosDe g w) (vis.set w true)
              (by rw [List.length_set]; exact hlen) (hvec w hwn) (by omega)
          obtain ⟨hm1, hl1, hcnt1⟩ :=
            dfsRecList_marcas g f (vecinosDe g w) (vis.set w true)
          obtain ⟨ha2, hb2, hc2, hd2, he2, hf2, hg2⟩ :=
            ihw (dfsRecList g f (vecinosDe g w) (vis.set w true)).2
              (by rw [hl1, List.length_set]; exact hlen) hwsr (by omega)
          obtain ⟨hm2, -, -⟩ :=
            dfsRecList_marcas g (f + 1) ws
              (dfsRecList g f (vecinosDe g w) (vis.set w true)).2
          dsimp only
          have hvis1w : (dfsRecList g f (vecinosDe g w) (vis.set w true)).2.getD w false
              = true := hm1 w hset
          have hmem : ∀ x : Nat,
              x ∈ w :: (dfsRecList g f (vecinosDe g w) (vis.set w true)).1
                ++ (dfsRecList g (f + 1) ws
                    (dfsRecList g f (vecinosDe g w) (vis.set w true)).2).1 ↔
              (x = w ∨ x ∈ (dfsRecList g f (vecinosDe g w) (vis.set w true)).1
                ∨ x ∈ (dfsRecList g (f + 1) ws
                    (dfsRecList g f (vecinosDe g w) (vis.set w true)).2).1) := by
            intro x
            rw [List.cons_append, List.mem_cons, List.mem_append]
          refine ⟨?_, ?_, ?_, ?_, ?_, ?_, ?_⟩
          · rw [List.cons_append, List.nodup_cons, List.mem_append, List.nodup_append,
              List.disjoint_left]
            refine ⟨?_, ha1, ha2, ?_⟩
            · rintro (hx | hx)
              · have h3 := hc1 w hx
                rw [hset] at h3
                exact absurd h3 (by decide)
              · have h3 := hc2 w hx
                rw [hvis1w] at h3
                exact absurd h3 (by decide)
            · intro x hx1 hx2
              have hmx : (dfsRecList g f (vecinosDe g w) (vis.set w true)).2.getD x false
                  = true := (hb1 x).mpr (Or.inr hx1)
              have h3 := hc2 x hx2
              rw [hmx] at h3
              exact absurd h3 (by decide)
          · intro x
            rw [hb2 x, hb1 x, hmem x]
            by_cases hxw : x = w
            · subst hxw
              constructor
              · intro _; exact Or.inr (Or.inl rfl)
              · intro _; exact Or.inl (Or.inl hset)
            · rw [getD_set_other true false vis w x (fun h2 => hxw h2.symm)]
              tauto
          · intro x hx
            rcases (hmem x).mp hx with rfl | hx | hx
            · exact hwf2
            · have hx1 := hc1 x hx
              have hxw : x ≠ w := by
                intro h2
                rw [h2, hset] at hx1
                exact absurd hx1 (by decide)
              rw [← getD_set_other true false vis w x (fun h2 => hxw h2.symm)]
              exact hx1
            · have hx2 := hc2 x hx
              cases h2 : vis.getD x false with
              | false => rfl
              | true =>
                rw [hm1 x (getD_set_true_mono vis w x h2)] at hx2
                exact absurd hx2 (by decide)
          · intro u hu
            rcases List.mem_cons.mp hu with rfl | hu
            · exact hm2 u hvis1w
            · exact hd2 u hu
          · intro x hx v hv
            rcases (hmem x).mp hx with rfl | hx | hx
            · exact hm2 v (hd1 v hv)
            · exact hm2 v (he1 x hx v hv)
            · exact he2 x hx v hv
          · intro x hx
            rcases (hmem x).mp hx with rfl | hx | hx
            · exact hwn
            · exact hf1 x hx
            · exact hf2 x hx
          · intro x hx
            rcases (hmem x).mp hx with rfl | hx | hx
            · exact ⟨x, List.mem_cons_self _ _, ⟨0, AlcanzaEn.inicio⟩⟩
            · obtain ⟨u, hu, hux⟩ := hg1 x hx
              exact ⟨w, List.mem_cons_self _ _, alcanza_prep g hu hux⟩
            · obtain ⟨u, hu, hux⟩ := hg2 x hx
              exact ⟨u, List.mem_cons_of_mem _ hu, hux⟩

/-- C5: for a well-formed loaded graph and a valid start node, `DFS`
outputs each node reachable from the start exactly once (no duplicates,
nothing unreachable), and its order is exactly the preorder a recursive
DFS over the ascending-sorted CSR neighbour rows would produce. -/
theorem DFS_correcto (g : GrafoDisperso) (hwf : esWF g = true)
    (s : Nat) (hs : s < g.numNodos) :
    (DFS g (s : Int)).Nodup ∧
    (∀ v, v ∈ DFS g (s : Int) ↔ Alcanzable g s v) ∧
    DFS g (s : Int) = dfsPreorden g s := by
  obtain ⟨hlen1, hlast, hmono, hcol, hsort⟩ := esWF_desglose g hwf
  have hvec : ∀ u, u < g.numNodos → ∀ w ∈ vecinosDe g u, w < g.numNodos := by
    intro u _ w hw
    exact hcol w (vecinosDe_sub g u w hw)
  have hDFS : DFS g (s : Int) = dfsLoop g (List.replicate g.numNodos false) [s] [] := by
    unfold DFS
    rw [if_neg (by omega)]
    simp [Int.toNat_natCast]
  have hcnt : (List.replicate g.numNodos false).count false = g.numNodos := by
    simp [List.count_replicate]
  have hv0 : ∀ u : Nat, (List.replicate g.numNodos false).getD u false = false :=
    fun u => getD_replicate false g.numNodos u
  have hsolo : ∀ w ∈ [s], w < g.numNodos := by
    intro w hw
    rw [List.mem_singleton] at hw
    subst hw
    exact hs
  have hsim := dfs_sim g hvec ((List.replicate g.numNodos false).count false)
    (([s] : List Nat).length + ([[s]].map (fun l => l.length + 1)).sum)
    (List.replicate g.numNodos false) [s] [[s]] [] (g.numNodos + 1)
    (Nat.le_refl _) (Nat.le_refl _) (by simp) hsolo
    (by
      intro l hl x hx
      rw [List.mem_singleton] at hl
      subst hl
      exact hsolo x hx)
    (by rw [hcnt]; omega)
    (by simp)
  have hpila : dfsRecPila g (g.numNodos + 1) [[s]] (List.replicate g.numNodos false)
      = dfsPreorden g s := by
    simp [dfsRecPila, dfsPreorden]
  have heq : DFS g (s : Int) = dfsPreorden g s := by
    rw [hDFS, hsim, List.nil_append, hpila]
  obtain ⟨ha, hb, -, hdp, he, -, hg⟩ := dfsRecList_post g hvec (g.numNodos + 1) [s]
    (List.replicate g.numNodos false) (by simp) hsolo (by rw [hcnt]; omega)
  refine ⟨?_, ?_, heq⟩
  · rw [heq]
    exact ha
  · intro v
    rw [heq]
    constructor
    · intro hv
      obtain ⟨u, hu, hux⟩ := hg v hv
      rw [List.mem_singleton] at hu
      subst hu
      exact hux
    · intro hv
      obtain ⟨d, hd2⟩ := hv
      have hmarcado : (dfsRecList g (g.numNodos + 1) [s]
          (List.replicate g.numNodos false)).2.getD v false = true := by
        induction hd2 with
        | inicio => exact hdp s (List.mem_singleton.mpr rfl)
        | @paso u d2 w2 h1 hmem ih =>
          have hu : u ∈ (dfsRecList g (g.numNodos + 1) [s]
              (List.replicate g.numNodos false)).1 :=
            ((hb u).mp ih).resolve_left (fun h2 => by
              rw [hv0 u] at h2
              exact absurd h2 (by decide))
          exact he u hu _ hmem
      rcases (hb v).mp hmarcado with h2 | h2
      · rw [hv0 v] at h2
        exact absurd h2 (by decide)
      · exact h2

/-- Witness for C5 at the loaded example graph, start node 0. -/
theorem DFS_correcto_testigo :
    (DFS grafoEjemplo ((0 : Nat) : Int)).Nodup ∧
    (∀ v, v ∈ DFS grafoEjemplo ((0 : Nat) : Int) ↔ Alcanzable grafoEjemplo 0 v) ∧
    DFS grafoEjemplo ((0 : Nat) : Int) = dfsPreorden grafoEjemplo 0 :=
  DFS_correcto grafoEjemplo (by decide) 0 (by decide)
